import Mathlib

/-!
Verification of the chunking core of `chunk_code.py`: call-graph
construction (`DependencyGraphBuilder`), strongly-connected-component
clustering, the structural splitter (`split_large_function`), the token
budget splitter (`split_large_chunk_by_token`) and the chunk assembler
(`chunk_code`).

Strings are modelled through their character lists.  Python's
`str.splitlines` is modelled for texts whose only line terminator is the
newline character (the inputs the chunker handles); `str.strip` is
modelled over Python's whitespace set.
-/

/-- Whitespace characters recognised by Python's `str.strip()`. -/
def isPyWs (c : Char) : Bool :=
  c = ' ' || c = '\t' || c = '\n' || c = '\r' || c = '\x0b' || c = '\x0c'

/-- Model of Python `str.strip()` on character lists: drop leading and
trailing whitespace. -/
def pyStripChars (cs : List Char) : List Char :=
  ((cs.dropWhile isPyWs).reverse.dropWhile isPyWs).reverse

/-- Model of Python `str.strip()`. -/
def pyStrip (s : String) : String :=
  String.mk (pyStripChars s.data)

/-- Model of Python `str.startswith(pre)`. -/
def pyStartswith (s pre : String) : Bool :=
  pre.data.isPrefixOf s.data

/-- Model of Python `str.splitlines()` on character lists, for texts whose
only line terminator is `'\n'`.  A trailing newline does not produce a
final empty line, matching Python. -/
def pyLinesChars : List Char → List (List Char)
  | [] => []
  | c :: cs =>
    if c = '\n' then [] :: pyLinesChars cs
    else
      match pyLinesChars cs with
      | [] => [[c]]
      | l :: ls => (c :: l) :: ls

/-- Model of Python `str.splitlines()`. -/
def pySplitlines (s : String) : List String :=
  (pyLinesChars s.data).map String.mk

/-- Model of Python `"\n".join(lines)` on character lists. -/
def joinNLChars : List (List Char) → List Char
  | [] => []
  | [l] => l
  | l :: l' :: ls => l ++ '\n' :: joinNLChars (l' :: ls)

/-- Model of Python `"\n".join(lines)`. -/
def pyJoinNL (lines : List String) : String :=
  String.mk (joinNLChars (lines.map String.data))

/-- Concatenation of segments separated by one blank line, on character
lists (the rendering of a cluster described by the specification). -/
def joinBlankChars : List (List Char) → List Char
  | [] => []
  | [l] => l
  | l :: l' :: ls => l ++ '\n' :: '\n' :: joinBlankChars (l' :: ls)

/-- Concatenation of segments separated by one blank line. -/
def joinBlank (segs : List String) : String :=
  String.mk (joinBlankChars (segs.map String.data))

/-! ## Abstract syntax

`PyNode` models the Python AST nodes the dependency-graph visitor can
distinguish: function definitions, call expressions whose callee is a
simple name (`ast.Name`), call expressions with any other callee shape,
and every other node kind, which the generic visitor only traverses.
Children are listed in the order `ast.NodeVisitor.generic_visit` reaches
them. -/
inductive PyNode where
  | funcDef (name : String) (body : List PyNode)
  | callName (callee : String) (args : List PyNode)
  | callOther (args : List PyNode)
  | other (children : List PyNode)

/-- Top-level statement of a parsed module: a `FunctionDef` or any other
statement, each carrying the exact source segment
`ast.get_source_segment` recovers for it. -/
inductive PyStmt where
  | funcDef (name : String) (body : List PyNode) (segment : String)
  | other (children : List PyNode) (segment : String)

/-- Parsed module: the raw source text together with its top-level
statements (the result of `ast.parse`). -/
structure PyModule where
  source : String
  body : List PyStmt

/-- View of a top-level statement as a visitable node. -/
def stmtToNode : PyStmt → PyNode
  | .funcDef n b _ => .funcDef n b
  | .other cs _ => .other cs

/-! ## Call graph (`DependencyGraphBuilder`, `chunk_code.py` lines 6-19) -/

/-- Directed graph with named nodes, as built through `networkx.DiGraph`:
node and edge lists in insertion order, without duplicates. -/
structure Graph where
  nodes : List String
  edges : List (String × String)
deriving Repr, DecidableEq

/-- Model of `DiGraph.add_node`. -/
def Graph.addNode (g : Graph) (n : String) : Graph :=
  if n ∈ g.nodes then g else { g with nodes := g.nodes ++ [n] }

/-- Model of `DiGraph.add_edge`: both endpoints become nodes, and the
edge is recorded once (the graph is simple). -/
def Graph.addEdge (g : Graph) (u v : String) : Graph :=
  let g := (g.addNode u).addNode v
  if (u, v) ∈ g.edges then g else { g with edges := g.edges ++ [(u, v)] }

/-- Mutable state of `DependencyGraphBuilder`: the graph and the
`current_function` attribute. -/
structure BuilderState where
  graph : Graph
  currentFunction : Option String
deriving Repr, DecidableEq

mutual

/-- Model of visiting one node: `visit_FunctionDef` sets
`current_function` and adds a node (without restoring the previous value
afterwards); `visit_Call` records an edge when the callee is a simple
name and `current_function` is set; every other node is only
traversed. -/
def visitNode (st : BuilderState) : PyNode → BuilderState
  | .funcDef name body =>
    visitNodes { graph := st.graph.addNode name, currentFunction := some name } body
  | .callName callee args =>
    let g := match st.currentFunction with
      | some cf => st.graph.addEdge cf callee
      | none => st.graph
    visitNodes { st with graph := g } args
  | .callOther args => visitNodes st args
  | .other children => visitNodes st children

/-- Visit a list of sibling nodes left to right, threading the state. -/
def visitNodes (st : BuilderState) : List PyNode → BuilderState
  | [] => st
  | n :: ns => visitNodes (visitNode st n) ns

end

/-- The dependency graph `chunk_code` builds for a module body
(`builder.visit(tree)` followed by reading `builder.graph`). -/
def moduleGraph (stmts : List PyStmt) : Graph :=
  (visitNodes ⟨⟨[], []⟩, none⟩ (stmts.map stmtToNode)).graph

/-- Model of `func_nodes = {node.name: node for node in tree.body if
isinstance(node, ast.FunctionDef)}`, keeping each function's source
segment.  As in a Python dict comprehension, a later duplicate name
overwrites an earlier one. -/
def funcMapOf (stmts : List PyStmt) : List (String × String) :=
  stmts.filterMap fun s => match s with
    | .funcDef n _ seg => some (n, seg)
    | .other _ _ => none

/-- Dictionary lookup (`func_nodes.get`): the last binding wins. -/
def lookupFunc (fm : List (String × String)) (n : String) : Option String :=
  (fm.reverse.find? (fun p => p.1 == n)).map (·.2)

/-- Names of the module's top-level function declarations. -/
def topLevelFuncNames (stmts : List PyStmt) : List String :=
  stmts.filterMap fun s => match s with
    | .funcDef n _ _ => some n
    | .other _ _ => none

/-! ## Strongly connected components
(`nx.strongly_connected_components(graph)`, `chunk_code.py` line 49)

Modelled through the mathematical definition used by the library: two
nodes share a component exactly when each reaches the other along
directed edges.  Reachability is computed by saturating the successor
relation; `g.nodes.length` expansion rounds cover every path. -/

/-- Successors of a node. -/
def Graph.succs (g : Graph) (u : String) : List String :=
  g.edges.filterMap fun e => if e.1 == u then some e.2 else none

/-- Add an element to a list unless already present. -/
def insertNew (l : List String) (x : String) : List String :=
  if x ∈ l then l else l ++ [x]

/-- One round of reachability expansion: add every successor of every
reached node. -/
def expandReach (g : Graph) (acc : List String) : List String :=
  acc.foldl (fun a u => (g.succs u).foldl insertNew a) acc

/-- Iterated expansion. -/
def reachAux (g : Graph) : Nat → List String → List String
  | 0, acc => acc
  | n + 1, acc => reachAux g n (expandReach g acc)

/-- Whether `v` is reachable from `u` along directed edges. -/
def Graph.reaches (g : Graph) (u v : String) : Bool :=
  v ∈ reachAux g g.nodes.length [u]

/-- Whether two nodes lie in the same strongly connected component. -/
def sameSCC (g : Graph) (u v : String) : Bool :=
  g.reaches u v && g.reaches v u

/-- Group the remaining nodes into components: the first node is grouped
with every remaining node mutually reachable with it, the rest are
grouped recursively.  The `fuel` argument only bounds the recursion
depth; `sccClusters` passes the node count, which always suffices
because each step strictly shrinks the remaining list. -/
def sccGo (g : Graph) : Nat → List String → List (List String)
  | _, [] => []
  | 0, _ :: _ => []
  | fuel + 1, n :: rest =>
    (n :: rest.filter (fun w => sameSCC g n w)) ::
      sccGo g fuel (rest.filter (fun w => !sameSCC g n w))

/-- The list of strongly connected components of the call graph
(`clusters` in `chunk_code`).  Enumeration order is the library's
choice; this model groups nodes in insertion order. -/
def sccClusters (g : Graph) : List (List String) :=
  sccGo g g.nodes.length g.nodes

/-! ## Structural splitter (`split_large_function`, lines 22-36) -/

/-- The trigger test of `split_large_function`, line 31:
`line.strip().startswith(('if ', 'for ', 'while ', 'try', 'except',
'def '))`.  Note that `if`, `for`, `while` and `def` require a following
space while `try` and `except` are bare prefixes. -/
def isSplitKeywordLine (line : String) : Bool :=
  let s := pyStrip line
  pyStartswith s "if " || pyStartswith s "for " || pyStartswith s "while " ||
    pyStartswith s "try" || pyStartswith s "except" || pyStartswith s "def "

/-- The scanning loop of `split_large_function` (lines 28-36): append
each line to the buffer, flush the buffer as a chunk when the appended
line passes the keyword test and the buffer has reached `maxLines`, and
flush any remaining buffered lines at the end. -/
def sflLoop (maxLines : Nat) (buffer : List String) : List String → List String
  | [] => if buffer.isEmpty then [] else [pyJoinNL buffer]
  | line :: rest =>
    let buffer := buffer ++ [line]
    if isSplitKeywordLine line ∧ maxLines ≤ buffer.length then
      pyJoinNL buffer :: sflLoop maxLines [] rest
    else
      sflLoop maxLines buffer rest

/-- Model of `split_large_function` applied to a function's source
segment (the Python function receives the node and re-extracts the
segment).  The default line budget at the call site is 50. -/
def splitLargeFunction (code : String) (maxLines : Nat) : List String :=
  let lines := pySplitlines code
  if lines.length ≤ maxLines then [code]
  else sflLoop maxLines [] lines

/-! ## Token budget splitter (`split_large_chunk_by_token`, lines 82-104) -/

/-- `MAX_TOKENS = 4000`. -/
def MAX_TOKENS : Nat := 4000

/-- `APPROX_CHARS_PER_TOKEN = 4`. -/
def APPROX_CHARS_PER_TOKEN : Nat := 4

/-- The scanning loop of `split_large_chunk_by_token` (lines 92-104):
greedily pack lines, counting each line's length plus one for its
newline; flush the buffer when adding the next line would exceed
`maxChars` and the buffer is non-empty. -/
def sltLoop (maxChars : Nat) (buffer : List String) (bufLen : Nat) :
    List String → List String
  | [] => if buffer.isEmpty then [] else [pyJoinNL buffer]
  | line :: rest =>
    let lineLen := line.length + 1
    if maxChars < bufLen + lineLen ∧ ¬buffer.isEmpty then
      pyJoinNL buffer :: sltLoop maxChars [line] lineLen rest
    else
      sltLoop maxChars (buffer ++ [line]) (bufLen + lineLen) rest

/-- Model of `split_large_chunk_by_token`.  The default token budget is
`MAX_TOKENS`. -/
def splitLargeChunkByToken (chunk : String) (maxTokens : Nat) : List String :=
  sltLoop (maxTokens * APPROX_CHARS_PER_TOKEN) [] 0 (pySplitlines chunk)

/-! ## Chunk assembly (`chunk_code`, lines 39-113) -/

/-- `full_code` accumulated for one cluster (lines 53-57): the source
segment of every member that is a known top-level function, each
followed by a blank line. -/
def fullCode (fm : List (String × String)) (cluster : List String) : String :=
  cluster.foldl (fun acc n => match lookupFunc fm n with
    | some seg => acc ++ seg ++ "\n\n"
    | none => acc) ""

/-- Chunks produced for one cluster (lines 52-66): if `full_code` spans
more than 100 lines, split every known member independently with the
structural splitter, otherwise emit the single stripped `full_code`. -/
def clusterChunks (fm : List (String × String)) (cluster : List String) :
    List String :=
  if 100 < (pySplitlines (fullCode fm cluster)).length then
    cluster.flatMap fun n => match lookupFunc fm n with
      | some seg => splitLargeFunction seg 50
      | none => []
  else [pyStrip (fullCode fm cluster)]

/-- `global_code` accumulated from non-function top-level statements
(lines 69-72). -/
def globalCode (stmts : List PyStmt) : String :=
  stmts.foldl (fun acc s => match s with
    | .funcDef _ _ _ => acc
    | .other _ seg => acc ++ seg ++ "\n\n") ""

/-- The final pass (lines 106-111): split every chunk exceeding
`MAX_TOKENS * APPROX_CHARS_PER_TOKEN` characters by the token budget
splitter, keep the rest. -/
def tokenLimitPass (chunks : List String) : List String :=
  chunks.flatMap fun c =>
    if MAX_TOKENS * APPROX_CHARS_PER_TOKEN < c.length then
      splitLargeChunkByToken c MAX_TOKENS
    else [c]

/-- Chunks contributed by all clusters, in cluster order (the loop of
lines 52-66). -/
def clusterChunksAll (m : PyModule) : List String :=
  (sccClusters (moduleGraph m.body)).flatMap (clusterChunks (funcMapOf m.body))

/-- Insertion of the stripped module-level code at the front when it is
non-blank (lines 74-75). -/
def withGlobal (m : PyModule) (chunks : List String) : List String :=
  if pyStrip (globalCode m.body) ≠ "" then
    pyStrip (globalCode m.body) :: chunks
  else chunks

/-- The fallback of lines 78-79: an empty chunk list becomes the single
stripped source. -/
def withFallback (m : PyModule) (chunks : List String) : List String :=
  if chunks.isEmpty then [pyStrip m.source] else chunks

/-- Model of `chunk_code` on a parsed module: cluster chunks, then the
global chunk inserted first, then the fallback, then the token budget
pass. -/
def chunkCode (m : PyModule) : List String :=
  tokenLimitPass (withFallback m (withGlobal m (clusterChunksAll m)))

/-! ## Specification-side definitions used to state the claims -/

mutual

/-- Value of `current_function` after the visitor has passed over one
node: entering a function definition sets it to that name, nothing
restores it. -/
def curAfter (cur : Option String) : PyNode → Option String
  | .funcDef n body => curAfterList (some n) body
  | .callName _ args => curAfterList cur args
  | .callOther args => curAfterList cur args
  | .other children => curAfterList cur children

/-- Value of `current_function` after a list of sibling nodes. -/
def curAfterList (cur : Option String) : List PyNode → Option String
  | [] => cur
  | n :: ns => curAfterList (curAfter cur n) ns

end

mutual

/-- Pre-order list of (value of `current_function` at the call, callee)
pairs for the simple-name call expressions below one node. -/
def callPairs (cur : Option String) : PyNode → List (Option String × String)
  | .funcDef n body => callPairsList (some n) body
  | .callName callee args => (cur, callee) :: callPairsList cur args
  | .callOther args => callPairsList cur args
  | .other children => callPairsList cur children

/-- Pre-order call pairs of a list of sibling nodes. -/
def callPairsList (cur : Option String) : List PyNode → List (Option String × String)
  | [] => []
  | n :: ns => callPairs cur n ++ callPairsList (curAfter cur n) ns

end

/-- Character that may continue an identifier, used to read a keyword as
a whole token. -/
def isIdentChar (c : Char) : Bool :=
  c.isAlphanum || c = '_'

/-- Whether a string starts with the keyword `kw` as a whole token: the
keyword is a prefix and is not continued by an identifier character. -/
def startsWithKeywordToken (s kw : String) : Bool :=
  kw.data.isPrefixOf s.data &&
    match s.data.drop kw.data.length with
    | [] => true
    | c :: _ => !isIdentChar c

/-- The flush trigger exactly as claim C4 words it: the line, with
whitespace stripped, starts with one of the keywords `if`, `for`,
`while`, `try`, `except` or `def`. -/
def claimKeywordLine (line : String) : Bool :=
  ["if", "for", "while", "try", "except", "def"].any
    (startsWithKeywordToken (pyStrip line))

/-- The scanning loop as claim C4 describes it, differing from `sflLoop`
only in the flush trigger. -/
def claimScan (maxLines : Nat) (buffer : List String) : List String → List String
  | [] => if buffer.isEmpty then [] else [pyJoinNL buffer]
  | line :: rest =>
    let buffer := buffer ++ [line]
    if claimKeywordLine line ∧ maxLines ≤ buffer.length then
      pyJoinNL buffer :: claimScan maxLines [] rest
    else
      claimScan maxLines buffer rest

/-- The structural splitter as claim C4 describes it. -/
def claimedStructuralSplit (code : String) (maxLines : Nat) : List String :=
  let lines := pySplitlines code
  if lines.length ≤ maxLines then [code]
  else claimScan maxLines [] lines

mutual

/-- Whether a node contains no function definition and no simple-name
call anywhere, so that visiting it leaves the builder state
unchanged. -/
def inertNode : PyNode → Bool
  | .funcDef _ _ => false
  | .callName _ _ => false
  | .callOther args => inertNodes args
  | .other children => inertNodes children

/-- Whether every node of a list is inert. -/
def inertNodes : List PyNode → Bool
  | [] => true
  | n :: ns => inertNode n && inertNodes ns

end

/-- The rendered text of a cluster as the specification describes it:
the member segments concatenated with a blank line between consecutive
segments, then stripped. -/
def renderedText (segs : List String) : String :=
  pyStrip (joinBlank segs)

/-- Character count a buffer occupies in `split_large_chunk_by_token`:
each line counts its length plus one for its newline. -/
def sumLen (buffer : List String) : Nat :=
  buffer.foldl (fun acc l => acc + (l.length + 1)) 0

/-- Exactness invariant of the scanning loops: no chunk-internal flush
opportunity.  `noTrigger maxLines buffer` says that no decomposition of
`buffer` puts a keyword line at a position where the buffer had already
reached the budget. -/
def noTrigger (maxLines : Nat) (buffer : List String) : Prop :=
  ∀ lp l ls, buffer = lp ++ l :: ls →
    ¬(isSplitKeywordLine l = true ∧ maxLines ≤ lp.length + 1)

/-- Accumulated concatenation of segments, each followed by a blank
line (the shape of `full_code` and `global_code`). -/
def segsConcat (segs : List String) : String :=
  segs.foldl (fun acc s => acc ++ s ++ "\n\n") ""

/-- Character-level shape of `segsConcat`: every segment followed by a
blank line. -/
def concatNl2 : List (List Char) → List Char
  | [] => []
  | l :: ls => l ++ '\n' :: '\n' :: concatNl2 ls


/-! ## Concrete example programs -/

/-- Module whose single top-level function holds a nested function whose
body calls `h` — the Python text
`def f():\n    def g():\n        h()`. -/
def nestedStmts : List PyStmt :=
  [.funcDef "f" [.funcDef "g" [.other [.callName "h" []]]]
    "def f():\n    def g():\n        h()"]

/-- Module with a module-level call after a function definition — the
Python text `def f():\n    pass\np()`. -/
def topCallStmts : List PyStmt :=
  [.funcDef "f" [.other []] "def f():\n    pass",
   .other [.callName "p" []] "p()"]

/-- Module whose function calls the builtin `print` — the Python text
`def f():\n    print(1)`. -/
def phantomModule : PyModule :=
  ⟨"def f():\n    print(1)",
   [.funcDef "f" [.other [.callName "print" []]] "def f():\n    print(1)"]⟩

/-- Module with two independent top-level functions. -/
def twoFuncModule : PyModule :=
  ⟨"def x():\n    pass\n\ndef y():\n    pass",
   [.funcDef "x" [.other []] "def x():\n    pass",
    .funcDef "y" [.other []] "def y():\n    pass"]⟩

/-- Small module with one two-line function. -/
def smallModule : PyModule :=
  ⟨"def a():\n    pass", [.funcDef "a" [.other []] "def a():\n    pass"]⟩

/-- The 120 lines of claim C4's scenario: a function definition with an
`if` statement on line 55 and no other keyword line past the budget. -/
def sampleLines120 : List String :=
  ["def f():"] ++ List.replicate 53 "    x = 1" ++ ["    if x:"] ++
    List.replicate 65 "        y = 2"

/-- The 120-line function text of claim C4's scenario. -/
def sample120 : String := pyJoinNL sampleLines120

/-- Lines of a 52-line function whose line 51 starts with the keyword
`if` immediately followed by a parenthesis. -/
def parenIfLines : List String :=
  ["def f():"] ++ List.replicate 49 "    x = 1" ++ ["    if(True):", "    y = 2"]

/-- A 52-line function text whose only keyword line past the budget is
`if(True):`, where `if` is not followed by a space. -/
def parenIfInput : String := pyJoinNL parenIfLines

/-- Source segment of a 50-line function `f` calling `g` on its last
line. -/
def segF : String :=
  pyJoinNL (["def f():"] ++ List.replicate 48 "    x = 1" ++ ["    g()"])

/-- Source segment of a 49-line function `g` calling `f` on its last
line. -/
def segG : String :=
  pyJoinNL (["def g():"] ++ List.replicate 47 "    y = 2" ++ ["    f()"])

/-- Module with two mutually recursive functions of 50 and 49 lines:
their cluster renders at exactly 100 lines. -/
def mutualModule : PyModule :=
  ⟨segF ++ "\n\n" ++ segG,
   [.funcDef "f" (List.replicate 48 (.other []) ++ [.other [.callName "g" []]]) segF,
    .funcDef "g" (List.replicate 47 (.other []) ++ [.other [.callName "f" []]]) segG]⟩

/-! ## Lemmas about the line and whitespace models -/

theorem pyLinesChars_ne_nil {cs : List Char} (h : cs ≠ []) :
    pyLinesChars cs ≠ [] := by
  match cs with
  | c :: cs =>
    rw [pyLinesChars]
    by_cases hc : c = '\n'
    · simp [hc]
    · simp only [hc, if_false]
      cases pyLinesChars cs <;> simp

theorem mem_pyLinesChars_not_nl {cs l : List Char} (h : l ∈ pyLinesChars cs) :
    '\n' ∉ l := by
  induction cs generalizing l with
  | nil => simp [pyLinesChars] at h
  | cons c cs ih =>
    rw [pyLinesChars] at h
    by_cases hc : c = '\n'
    · simp only [hc, if_true, List.mem_cons] at h
      rcases h with h | h
      · simp [h]
      · exact ih h
    · simp only [hc, if_false] at h
      rcases heq : pyLinesChars cs with _ | ⟨l₀, ls⟩
      · rw [heq] at h
        simp only [List.mem_singleton] at h
        subst h
        intro hmem
        rcases List.mem_singleton.mp hmem with h
        exact hc h.symm
      · rw [heq] at h
        simp only [List.mem_cons] at h
        rcases h with h | h
        · subst h
          intro hmem
          rcases List.mem_cons.mp hmem with h | h
          · exact hc h.symm
          · exact ih (heq ▸ List.mem_cons_self _ _) h
        · exact ih (heq ▸ List.mem_cons_of_mem _ h)

theorem pyLinesChars_no_nl {cs : List Char} (h : '\n' ∉ cs) :
    pyLinesChars cs = if cs = [] then [] else [cs] := by
  induction cs with
  | nil => rfl
  | cons c cs ih =>
    have hc : ¬c = '\n' := fun hcc => h (hcc ▸ List.mem_cons_self _ _)
    have hcs : '\n' ∉ cs := fun hmem => h (List.mem_cons_of_mem _ hmem)
    rw [pyLinesChars, if_neg hc, ih hcs]
    by_cases hnil : cs = [] <;> simp [hnil]

theorem joinNLChars_pyLinesChars {cs : List Char}
    (h : cs.getLast? ≠ some '\n') :
    joinNLChars (pyLinesChars cs) = cs := by
  induction cs with
  | nil => rfl
  | cons c cs ih =>
    rcases hnil : cs with _ | ⟨d, ds⟩
    · subst hnil
      have hc : ¬c = '\n' := by
        intro hcc
        exact h (by simp [hcc])
      simp [pyLinesChars, hc, joinNLChars]
    · rw [← hnil]
      have hcs : cs ≠ [] := by simp [hnil]
      have h2 : cs.getLast? ≠ some '\n' := by
        subst hnil
        rwa [List.getLast?_cons_cons] at h
      have ihcs := ih h2
      have hne := pyLinesChars_ne_nil hcs
      rcases heq : pyLinesChars cs with _ | ⟨l, ls⟩
      · exact absurd heq hne
      rw [heq] at ihcs
      by_cases hc : c = '\n'
      · subst hc
        simp only [pyLinesChars, if_pos rfl, heq, joinNLChars, List.nil_append]
        rw [ihcs]
      · simp only [pyLinesChars, if_neg hc, heq]
        rcases ls with _ | ⟨l', ls'⟩
        · simp only [joinNLChars] at ihcs ⊢
          rw [ihcs]
        · simp only [joinNLChars] at ihcs ⊢
          rw [List.cons_append, ihcs]

theorem pyLinesChars_append_nl (cs ds : List Char) :
    pyLinesChars (cs ++ '\n' :: ds) =
      pyLinesChars (cs ++ ['\n']) ++ pyLinesChars ds := by
  induction cs with
  | nil => simp [pyLinesChars]
  | cons c cs ih =>
    by_cases hc : c = '\n'
    · simp only [List.cons_append, pyLinesChars, if_pos hc, List.append_eq]
      rw [ih]
    · simp only [List.cons_append, pyLinesChars, if_neg hc, List.append_eq]
      rw [ih]
      have hne : pyLinesChars (cs ++ ['\n']) ≠ [] := pyLinesChars_ne_nil (by simp)
      rcases heq : pyLinesChars (cs ++ ['\n']) with _ | ⟨l, ls⟩
      · exact absurd heq hne
      · simp

theorem pyLinesChars_append_single_nl {cs : List Char} (h0 : cs ≠ [])
    (h : cs.getLast? ≠ some '\n') :
    pyLinesChars (cs ++ ['\n']) = pyLinesChars cs := by
  induction cs with
  | nil => exact absurd rfl h0
  | cons c cs ih =>
    by_cases hnil : cs = []
    · subst hnil
      have hc : ¬c = '\n' := fun hcc => h (by simp [hcc])
      simp [pyLinesChars, hc]
    · obtain ⟨d, ds, rfl⟩ : ∃ d ds, cs = d :: ds := by
        cases cs with
        | nil => exact absurd rfl hnil
        | cons d ds => exact ⟨d, ds, rfl⟩
      have h2 : (d :: ds).getLast? ≠ some '\n' := by
        rwa [List.getLast?_cons_cons] at h
      have ihcs := ih hnil h2
      conv_lhs => rw [List.cons_append, pyLinesChars]
      conv_rhs => rw [pyLinesChars]
      rw [ihcs]

theorem joinNLChars_append {g h : List (List Char)} (hg : g ≠ []) (hh : h ≠ []) :
    joinNLChars (g ++ h) = joinNLChars g ++ '\n' :: joinNLChars h := by
  induction g with
  | nil => exact absurd rfl hg
  | cons l ls ih =>
    rcases ls with _ | ⟨l', ls'⟩
    · rcases h with _ | ⟨m, ms⟩
      · exact absurd rfl hh
      · simp only [List.cons_append, List.nil_append, joinNLChars]
    · have ihh := ih (by simp)
      simp only [List.cons_append] at ihh ⊢
      simp only [joinNLChars]
      rw [ihh]
      simp

theorem joinNLChars_length {ls : List (List Char)} (h : ls ≠ []) :
    (joinNLChars ls).length = (ls.map List.length).sum + ls.length - 1 := by
  induction ls with
  | nil => exact absurd rfl h
  | cons l ls ih =>
    rcases ls with _ | ⟨l', ls'⟩
    · simp [joinNLChars]
    · have hrec := ih (by simp)
      simp only [joinNLChars, List.length_append, List.length_cons, hrec,
        List.map_cons, List.sum_cons]
      omega

theorem flatten_ne_nil {α : Type} {gs : List (List α)} (h0 : gs ≠ [])
    (h1 : [] ∉ gs) :
    gs.flatten ≠ [] := by
  rcases gs with _ | ⟨g, rest⟩
  · exact absurd rfl h0
  · have hg : g ≠ [] := fun hg => h1 (hg ▸ List.mem_cons_self _ _)
    simp only [List.flatten_cons]
    intro hcontra
    exact hg (List.append_eq_nil.mp hcontra).1

theorem joinNLChars_flatten {gss : List (List (List Char))} (h : [] ∉ gss) :
    joinNLChars (gss.map joinNLChars) = joinNLChars gss.flatten := by
  induction gss with
  | nil => rfl
  | cons g gss ih =>
    have hg : g ≠ [] := fun hg => h (hg ▸ List.mem_cons_self _ _)
    have hrest : [] ∉ gss := fun hmem => h (List.mem_cons_of_mem _ hmem)
    rcases gss with _ | ⟨g', gss'⟩
    · simp [joinNLChars]
    · have hflat : (g' :: gss').flatten ≠ [] := flatten_ne_nil (by simp) hrest
      have happ := joinNLChars_append hg hflat
      calc joinNLChars (List.map joinNLChars (g :: g' :: gss'))
          = joinNLChars g ++ '\n' ::
              joinNLChars (List.map joinNLChars (g' :: gss')) := by
            simp only [List.map_cons, joinNLChars]
        _ = joinNLChars g ++ '\n' :: joinNLChars (g' :: gss').flatten := by
            rw [ih hrest]
        _ = joinNLChars (g ++ (g' :: gss').flatten) := happ.symm
        _ = joinNLChars (g :: g' :: gss').flatten := by simp

/-! ## Lemmas about the whitespace stripping model -/

theorem dropWhile_len_le (p : Char → Bool) (l : List Char) :
    (l.dropWhile p).length ≤ l.length := by
  induction l with
  | nil => simp
  | cons c cs ih =>
    by_cases hp : p c
    · rw [List.dropWhile_cons_of_pos hp]
      exact Nat.le_succ_of_le ih
    · rw [List.dropWhile_cons_of_neg hp]

theorem dropWhile_all_append {p : Char → Bool} {l₁ : List Char} (l₂ : List Char)
    (h : ∀ c ∈ l₁, p c = true) :
    (l₁ ++ l₂).dropWhile p = l₂.dropWhile p := by
  induction l₁ with
  | nil => rfl
  | cons c cs ih =>
    rw [List.cons_append, List.dropWhile_cons_of_pos (h c (List.mem_cons_self _ _))]
    exact ih fun d hd => h d (List.mem_cons_of_mem _ hd)

theorem dropWhile_append_of_ne_nil {p : Char → Bool} {l₁ : List Char} (l₂ : List Char)
    (h : l₁.dropWhile p ≠ []) :
    (l₁ ++ l₂).dropWhile p = l₁.dropWhile p ++ l₂ := by
  induction l₁ with
  | nil => exact absurd rfl h
  | cons c cs ih =>
    by_cases hp : p c
    · rw [List.dropWhile_cons_of_pos hp] at h
      rw [List.cons_append, List.dropWhile_cons_of_pos hp,
        List.dropWhile_cons_of_pos hp]
      exact ih h
    · rw [List.cons_append, List.dropWhile_cons_of_neg hp,
        List.dropWhile_cons_of_neg hp]
      simp

theorem pyStripChars_append_ws {cs ws : List Char}
    (h : ∀ c ∈ ws, isPyWs c = true) :
    pyStripChars (cs ++ ws) = pyStripChars cs := by
  unfold pyStripChars
  by_cases hnil : cs.dropWhile isPyWs = []
  · have hall : (cs ++ ws).dropWhile isPyWs = [] := by
      rw [List.dropWhile_eq_nil_iff] at hnil ⊢
      intro x hx
      rcases List.mem_append.mp hx with h1 | h2
      · exact hnil x h1
      · exact h x h2
    rw [hnil, hall]
  · rw [dropWhile_append_of_ne_nil ws hnil, List.reverse_append,
      dropWhile_all_append _ fun c hc => h c (List.mem_reverse.mp hc)]

theorem pyStripChars_eq_self {cs : List Char}
    (h1 : ∀ c, cs.head? = some c → isPyWs c = false)
    (h2 : ∀ c, cs.getLast? = some c → isPyWs c = false) :
    pyStripChars cs = cs := by
  rcases cs with _ | ⟨c, cs'⟩
  · rfl
  · have hc : ¬isPyWs c = true := by simp [h1 c rfl]
    unfold pyStripChars
    rw [List.dropWhile_cons_of_neg hc]
    rcases hh : (c :: cs').reverse with _ | ⟨d, ds⟩
    · simp at hh
    · have hd : (c :: cs').getLast? = some d := by
        rw [← List.head?_reverse, hh]
        rfl
      have hdws : ¬isPyWs d = true := by simp [h2 d hd]
      rw [List.dropWhile_cons_of_neg hdws, ← hh, List.reverse_reverse]

theorem pyStripChars_len_le (cs : List Char) :
    (pyStripChars cs).length ≤ (cs.dropWhile isPyWs).length := by
  unfold pyStripChars
  calc ((cs.dropWhile isPyWs).reverse.dropWhile isPyWs).reverse.length
      = ((cs.dropWhile isPyWs).reverse.dropWhile isPyWs).length := by
        rw [List.length_reverse]
    _ ≤ (cs.dropWhile isPyWs).reverse.length := dropWhile_len_le _ _
    _ = (cs.dropWhile isPyWs).length := by rw [List.length_reverse]

theorem head_not_ws_of_strip_eq {cs : List Char} (h : pyStripChars cs = cs) :
    ∀ c, cs.head? = some c → isPyWs c = false := by
  intro c hc
  rcases cs with _ | ⟨c₀, cs'⟩
  · simp at hc
  · have hc₀ : c₀ = c := by simpa using hc
    subst hc₀
    by_contra hws
    have hws' : isPyWs c₀ = true := by
      cases hb : isPyWs c₀
      · exact absurd hb hws
      · rfl
    have hlen : (pyStripChars (c₀ :: cs')).length ≤ cs'.length := by
      calc (pyStripChars (c₀ :: cs')).length
          ≤ ((c₀ :: cs').dropWhile isPyWs).length := pyStripChars_len_le _
        _ = (cs'.dropWhile isPyWs).length := by
            rw [List.dropWhile_cons_of_pos hws']
        _ ≤ cs'.length := dropWhile_len_le _ _
    rw [h] at hlen
    simp at hlen

theorem getLast?_dropWhile {p : Char → Bool} {l : List Char}
    (h : l.dropWhile p ≠ []) :
    (l.dropWhile p).getLast? = l.getLast? := by
  induction l with
  | nil => exact absurd rfl h
  | cons c cs ih =>
    by_cases hp : p c
    · rw [List.dropWhile_cons_of_pos hp] at h ⊢
      have hcs : cs ≠ [] := by
        intro hnil
        rw [hnil] at h
        exact h rfl
      rcases cs with _ | ⟨d, ds⟩
      · exact absurd rfl hcs
      · rw [ih h, List.getLast?_cons_cons]
    · rw [List.dropWhile_cons_of_neg hp]

theorem last_not_ws_of_strip_eq {cs : List Char} (h : pyStripChars cs = cs)
    (h0 : cs ≠ []) :
    ∀ c, cs.getLast? = some c → isPyWs c = false := by
  intro c hc
  by_contra hws
  have hws' : isPyWs c = true := by
    cases hb : isPyWs c
    · exact absurd hb hws
    · rfl
  by_cases hnil : cs.dropWhile isPyWs = []
  · have : pyStripChars cs = [] := by
      unfold pyStripChars
      rw [hnil]
      rfl
    rw [h] at this
    exact h0 this
  · have hlastd : (cs.dropWhile isPyWs).getLast? = some c :=
      (getLast?_dropWhile hnil).trans hc
    have hrevhead : (cs.dropWhile isPyWs).reverse.head? = some c := by
      rw [List.head?_reverse]
      exact hlastd
    rcases hh : (cs.dropWhile isPyWs).reverse with _ | ⟨d, ds⟩
    · rw [hh] at hrevhead
      simp at hrevhead
    · have hd : d = c := by
        rw [hh] at hrevhead
        simpa using hrevhead
      subst hd
      have hlen : (pyStripChars cs).length ≤ ds.length := by
        unfold pyStripChars
        rw [hh, List.dropWhile_cons_of_pos hws', List.length_reverse]
        exact dropWhile_len_le _ _
      have hds : ds.length + 1 = (cs.dropWhile isPyWs).length := by
        have := congrArg List.length hh
        simp at this
        omega
      have hd2 : (cs.dropWhile isPyWs).length ≤ cs.length :=
        dropWhile_len_le _ _
      rw [h] at hlen
      omega

/-! ## Generic list decomposition helper -/

theorem concat_eq_append_cons {α : Type} {buffer lp : List α} {line l : α}
    {ls : List α} (h : buffer ++ [line] = lp ++ l :: ls) (hls : ls ≠ []) :
    ∃ ls', ls = ls' ++ [line] ∧ buffer = lp ++ l :: ls' := by
  have h' : buffer ++ [line] = (lp ++ [l]) ++ ls := by
    rw [h]
    simp
  have hlast : ls.getLast? = some line := by
    have h1 := congrArg List.getLast? h'
    rw [List.getLast?_concat, List.getLast?_append_of_ne_nil _ hls] at h1
    exact h1.symm
  have hline : ls.getLast hls = line := by
    have h2 := List.getLast?_eq_getLast ls hls
    rw [hlast] at h2
    exact (Option.some_inj.mp h2).symm
  refine ⟨ls.dropLast, ?_, ?_⟩
  · conv_lhs => rw [← List.dropLast_append_getLast hls]
    rw [hline]
  · have h2 := congrArg List.dropLast h'
    rw [List.dropLast_concat, List.dropLast_append_of_ne_nil (lp ++ [l]) hls] at h2
    rw [h2]
    simp

theorem concat_inj_left {α : Type} {buffer lp : List α} {line l : α}
    (h : buffer ++ [line] = lp ++ [l]) : buffer = lp ∧ line = l := by
  have h1 := congrArg List.dropLast h
  rw [List.dropLast_concat, List.dropLast_concat] at h1
  have h2 := congrArg List.getLast? h
  rw [List.getLast?_concat, List.getLast?_concat] at h2
  exact ⟨h1, Option.some_inj.mp h2⟩

/-! ## Structure of the structural splitter's output -/

theorem sflLoop_groups (maxLines : Nat) :
    ∀ (lines buffer : List String), noTrigger maxLines buffer →
      ∃ groups : List (List String),
        [] ∉ groups ∧
        groups.flatten = buffer ++ lines ∧
        sflLoop maxLines buffer lines = groups.map pyJoinNL ∧
        (∀ gp g gs, groups = gp ++ g :: gs → gs ≠ [] →
          maxLines ≤ g.length ∧
          ∃ l, g.getLast? = some l ∧ isSplitKeywordLine l = true) ∧
        (∀ g ∈ groups, ∀ lp l ls, g = lp ++ l :: ls → ls ≠ [] →
          ¬(isSplitKeywordLine l = true ∧ maxLines ≤ lp.length + 1)) := by
  intro lines
  induction lines with
  | nil =>
    intro buffer hbuf
    by_cases hb : buffer = []
    · refine ⟨[], by simp, by simp [hb], ?_, ?_, by simp⟩
      · simp [sflLoop, hb]
      · intro gp g gs hgs
        exact absurd hgs.symm (by simp)
    · refine ⟨[buffer], by simp [hb], by simp, ?_, ?_, ?_⟩
      · simp [sflLoop, hb]
      · intro gp g gs hgs hne
        rcases gp with _ | ⟨x, gp'⟩
        · simp at hgs
          exact absurd hgs.2 hne
        · rw [List.cons_append] at hgs
          have := (List.cons_eq_cons.mp hgs.symm).2
          exact absurd this.symm (by simp)
      · intro g hg lp l ls hdec hne
        rw [List.mem_singleton] at hg
        subst hg
        exact hbuf lp l ls hdec
  | cons line rest ih =>
    intro buffer hbuf
    by_cases hcond : isSplitKeywordLine line = true ∧
        maxLines ≤ (buffer ++ [line]).length
    · have hnil : noTrigger maxLines [] := by
        intro lp l ls hdec
        exact absurd hdec.symm (by simp)
      obtain ⟨groups0, h1, h2, h3, h4, h5⟩ := ih [] hnil
      refine ⟨(buffer ++ [line]) :: groups0, ?_, ?_, ?_, ?_, ?_⟩
      · intro hmem
        rcases List.mem_cons.mp hmem with hx | hx
        · exact absurd hx.symm (by simp)
        · exact h1 hx
      · rw [List.flatten_cons, h2]
        simp
      · rw [sflLoop, if_pos hcond, h3, List.map_cons]
      · intro gp g gs hgs hne
        rcases gp with _ | ⟨x, gp'⟩
        · simp only [List.nil_append, List.cons_eq_cons] at hgs
          obtain ⟨hg, _⟩ := hgs
          subst hg
          refine ⟨by simpa using hcond.2, line, List.getLast?_concat _, hcond.1⟩
        · rw [List.cons_append] at hgs
          obtain ⟨_, hrest⟩ := List.cons_eq_cons.mp hgs
          exact h4 gp' g gs hrest hne
      · intro g hg lp l ls hdec hne
        rcases List.mem_cons.mp hg with hx | hx
        · subst hx
          obtain ⟨ls', hls', hbuffer⟩ := concat_eq_append_cons hdec hne
          exact hbuf lp l ls' hbuffer
        · exact h5 g hx lp l ls hdec hne
    · have hbuf' : noTrigger maxLines (buffer ++ [line]) := by
        intro lp l ls hdec
        by_cases hls : ls = []
        · subst hls
          obtain ⟨hlp, hl⟩ := concat_inj_left hdec
          subst hlp
          subst hl
          intro hcontra
          exact hcond ⟨hcontra.1, by simpa using hcontra.2⟩
        · obtain ⟨ls', _, hbuffer⟩ := concat_eq_append_cons hdec hls
          exact hbuf lp l ls' hbuffer
      obtain ⟨groups0, h1, h2, h3, h4, h5⟩ := ih (buffer ++ [line]) hbuf'
      refine ⟨groups0, h1, ?_, ?_, h4, h5⟩
      · rw [h2]
        simp
      · rw [sflLoop, if_neg hcond, h3]

/-! ## Structure of the token budget splitter's output -/

theorem sumLen_cons (l : String) (buffer : List String) :
    sumLen (l :: buffer) = (l.length + 1) + sumLen buffer := by
  unfold sumLen
  rw [List.foldl_cons]
  have h : ∀ (acc : Nat) (bs : List String),
      bs.foldl (fun acc l => acc + (l.length + 1)) acc =
        acc + bs.foldl (fun acc l => acc + (l.length + 1)) 0 := by
    intro acc bs
    induction bs generalizing acc with
    | nil => simp
    | cons b bs ih =>
      rw [List.foldl_cons, List.foldl_cons, ih, ih (0 + (b.length + 1))]
      omega
  rw [h]
  omega

theorem sumLen_concat (buffer : List String) (l : String) :
    sumLen (buffer ++ [l]) = sumLen buffer + (l.length + 1) := by
  induction buffer with
  | nil => simp [sumLen]
  | cons b bs ih =>
    rw [List.cons_append, sumLen_cons, ih, sumLen_cons]
    omega

theorem sumLen_eq_sum_add_length (g : List String) :
    sumLen g = (g.map String.length).sum + g.length := by
  induction g with
  | nil => rfl
  | cons l ls ih =>
    rw [sumLen_cons, ih]
    simp
    omega

theorem sltLoop_groups (maxChars : Nat) :
    ∀ (lines buffer : List String) (bufLen : Nat),
      bufLen = sumLen buffer →
      (2 ≤ buffer.length → bufLen ≤ maxChars) →
      ∃ groups : List (List String),
        [] ∉ groups ∧
        groups.flatten = buffer ++ lines ∧
        sltLoop maxChars buffer bufLen lines = groups.map pyJoinNL ∧
        (∀ g ∈ groups, 2 ≤ g.length → sumLen g ≤ maxChars) := by
  intro lines
  induction lines with
  | nil =>
    intro buffer bufLen hb hOK
    by_cases hnil : buffer = []
    · refine ⟨[], by simp, by simp [hnil], by simp [sltLoop, hnil], by simp⟩
    · refine ⟨[buffer], by simp [hnil], by simp, by simp [sltLoop, hnil], ?_⟩
      intro g hg h2
      rw [List.mem_singleton] at hg
      subst hg
      rw [← hb]
      exact hOK h2
  | cons line rest ih =>
    intro buffer bufLen hb hOK
    by_cases hcond : maxChars < bufLen + (line.length + 1) ∧ ¬buffer.isEmpty = true
    · have hbuf_ne : buffer ≠ [] := by
        intro hx
        exact hcond.2 (by simp [hx])
      have hb1 : line.length + 1 = sumLen [line] := by
        simp [sumLen]
      obtain ⟨groups0, h1, h2, h3, h4⟩ :=
        ih [line] (line.length + 1) hb1 (by simp)
      refine ⟨buffer :: groups0, ?_, ?_, ?_, ?_⟩
      · intro hmem
        rcases List.mem_cons.mp hmem with hx | hx
        · exact hbuf_ne hx.symm
        · exact h1 hx
      · rw [List.flatten_cons, h2]
        simp
      · rw [sltLoop, if_pos hcond, h3]
        rfl
      · intro g hg h2len
        rcases List.mem_cons.mp hg with hx | hx
        · subst hx
          rw [← hb]
          exact hOK h2len
        · exact h4 g hx h2len
    · have hb' : bufLen + (line.length + 1) = sumLen (buffer ++ [line]) := by
        rw [sumLen_concat, hb]
      have hOK' : 2 ≤ (buffer ++ [line]).length →
          bufLen + (line.length + 1) ≤ maxChars := by
        intro hlen2
        by_cases hnil : buffer = []
        · subst hnil
          simp at hlen2
        · by_contra hgt
          push_neg at hgt
          exact hcond ⟨hgt, by simp [hnil]⟩
      obtain ⟨groups0, h1, h2, h3, h4⟩ :=
        ih (buffer ++ [line]) (bufLen + (line.length + 1)) hb' hOK'
      refine ⟨groups0, h1, ?_, ?_, h4⟩
      · rw [h2]
        simp
      · rw [sltLoop, if_neg hcond, h3]

/-! ## Lemmas about graph construction -/

theorem addNode_edges (g : Graph) (n : String) :
    (g.addNode n).edges = g.edges := by
  unfold Graph.addNode
  split <;> rfl

theorem mem_addNode_nodes {g : Graph} {n x : String} :
    x ∈ (g.addNode n).nodes ↔ x ∈ g.nodes ∨ x = n := by
  unfold Graph.addNode
  by_cases h : n ∈ g.nodes
  · rw [if_pos h]
    constructor
    · exact Or.inl
    · rintro (hx | rfl)
      · exact hx
      · exact h
  · rw [if_neg h]
    simp

theorem addNode_nodes_nodup {g : Graph} {n : String} (h : g.nodes.Nodup) :
    (g.addNode n).nodes.Nodup := by
  unfold Graph.addNode
  by_cases hn : n ∈ g.nodes
  · rwa [if_pos hn]
  · rw [if_neg hn]
    rw [List.nodup_append]
    exact ⟨h, List.nodup_singleton n, by
      intro a ha hb
      rw [List.mem_singleton] at hb
      subst hb
      exact hn ha⟩

theorem addEdge_nodes (g : Graph) (u v : String) :
    (g.addEdge u v).nodes = ((g.addNode u).addNode v).nodes := by
  unfold Graph.addEdge
  by_cases h : (u, v) ∈ ((g.addNode u).addNode v).edges
  · simp [h]
  · simp [h]

theorem mem_addEdge_edges {g : Graph} {u v x y : String} :
    (x, y) ∈ (g.addEdge u v).edges ↔ (x, y) ∈ g.edges ∨ (x, y) = (u, v) := by
  have hE : ((g.addNode u).addNode v).edges = g.edges := by
    rw [addNode_edges, addNode_edges]
  by_cases h : (u, v) ∈ ((g.addNode u).addNode v).edges
  · have hsplit : (g.addEdge u v).edges = ((g.addNode u).addNode v).edges := by
      unfold Graph.addEdge
      simp [h]
    rw [hsplit, hE]
    rw [hE] at h
    constructor
    · exact Or.inl
    · rintro (hx | hx)
      · exact hx
      · exact hx ▸ h
  · have hsplit : (g.addEdge u v).edges =
        ((g.addNode u).addNode v).edges ++ [(u, v)] := by
      unfold Graph.addEdge
      simp [h]
    rw [hsplit, hE]
    simp

/-! ## Simulation of the dependency-graph visitor

The visitor is characterised by the pre-order traversal that threads the
value of `current_function`: it records exactly the pairs `callPairs`
collects, and it never removes nodes. -/

theorem visit_sim : ∀ (ns : List PyNode) (st : BuilderState),
    (visitNodes st ns).currentFunction = curAfterList st.currentFunction ns ∧
    (∀ u v, ((u, v) ∈ (visitNodes st ns).graph.edges ↔
      (u, v) ∈ st.graph.edges ∨
        (some u, v) ∈ callPairsList st.currentFunction ns)) ∧
    (∀ x, x ∈ st.graph.nodes → x ∈ (visitNodes st ns).graph.nodes) ∧
    (st.graph.nodes.Nodup → (visitNodes st ns).graph.nodes.Nodup)
  | [], st => by
    simp [visitNodes, curAfterList, callPairsList]
  | (PyNode.funcDef name body) :: ns, st => by
    obtain ⟨a1, a2, a3, a4⟩ :=
      visit_sim body ⟨st.graph.addNode name, some name⟩
    obtain ⟨b1, b2, b3, b4⟩ :=
      visit_sim ns (visitNodes ⟨st.graph.addNode name, some name⟩ body)
    have hv : visitNodes st (PyNode.funcDef name body :: ns) =
        visitNodes (visitNodes ⟨st.graph.addNode name, some name⟩ body) ns := by
      rw [visitNodes, visitNode]
    refine ⟨?_, ?_, ?_, ?_⟩
    · rw [hv, b1, a1, curAfterList, curAfter]
    · intro u v
      rw [hv, b2, a2, a1]
      simp only [addNode_edges, callPairsList, curAfter, List.mem_append]
      tauto
    · intro x hx
      rw [hv]
      exact b3 x (a3 x (mem_addNode_nodes.mpr (Or.inl hx)))
    · intro hnd
      rw [hv]
      exact b4 (a4 (addNode_nodes_nodup hnd))
  | (PyNode.callName callee args) :: ns, st => by
    obtain ⟨g0, cur0⟩ := st
    rcases cur0 with _ | cf
    · obtain ⟨a1, a2, a3, a4⟩ := visit_sim args ⟨g0, none⟩
      obtain ⟨b1, b2, b3, b4⟩ := visit_sim ns (visitNodes ⟨g0, none⟩ args)
      have hv : visitNodes ⟨g0, none⟩ (PyNode.callName callee args :: ns) =
          visitNodes (visitNodes ⟨g0, none⟩ args) ns := rfl
      refine ⟨?_, ?_, ?_, ?_⟩
      · rw [hv, b1, a1]
        rfl
      · intro u v
        rw [hv, b2, a2, a1]
        simp only [callPairsList, callPairs, curAfter, List.mem_append,
          List.mem_cons, Prod.mk.injEq]
        constructor
        · rintro ((h | h) | h)
          · exact Or.inl h
          · exact Or.inr (Or.inl (Or.inr h))
          · exact Or.inr (Or.inr h)
        · rintro (h | (⟨h1, h2⟩ | h) | h)
          · exact Or.inl (Or.inl h)
          · exact absurd h1 (Option.some_ne_none u)
          · exact Or.inl (Or.inr h)
          · exact Or.inr h
      · intro x hx
        rw [hv]
        exact b3 x (a3 x hx)
      · intro hnd
        rw [hv]
        exact b4 (a4 hnd)
    · obtain ⟨a1, a2, a3, a4⟩ := visit_sim args ⟨g0.addEdge cf callee, some cf⟩
      obtain ⟨b1, b2, b3, b4⟩ :=
        visit_sim ns (visitNodes ⟨g0.addEdge cf callee, some cf⟩ args)
      have hv : visitNodes ⟨g0, some cf⟩ (PyNode.callName callee args :: ns) =
          visitNodes (visitNodes ⟨g0.addEdge cf callee, some cf⟩ args) ns := rfl
      refine ⟨?_, ?_, ?_, ?_⟩
      · rw [hv, b1, a1]
        rfl
      · intro u v
        rw [hv, b2, a2, a1]
        simp only [mem_addEdge_edges, callPairsList, callPairs, curAfter,
          List.mem_append, List.mem_cons, Prod.mk.injEq, Option.some_inj]
        constructor
        · rintro (((h | ⟨rfl, rfl⟩) | h) | h)
          · exact Or.inl h
          · exact Or.inr (Or.inl (Or.inl ⟨rfl, rfl⟩))
          · exact Or.inr (Or.inl (Or.inr h))
          · exact Or.inr (Or.inr h)
        · rintro (h | (⟨rfl, rfl⟩ | h) | h)
          · exact Or.inl (Or.inl (Or.inl h))
          · exact Or.inl (Or.inl (Or.inr ⟨rfl, rfl⟩))
          · exact Or.inl (Or.inr h)
          · exact Or.inr h
      · intro x hx
        rw [hv]
        refine b3 x (a3 x ?_)
        show x ∈ (g0.addEdge cf callee).nodes
        rw [addEdge_nodes]
        exact mem_addNode_nodes.mpr
          (Or.inl (mem_addNode_nodes.mpr (Or.inl hx)))
      · intro hnd
        rw [hv]
        refine b4 (a4 ?_)
        show (g0.addEdge cf callee).nodes.Nodup
        rw [addEdge_nodes]
        exact addNode_nodes_nodup (addNode_nodes_nodup hnd)
  | (PyNode.callOther args) :: ns, st => by
    obtain ⟨a1, a2, a3, a4⟩ := visit_sim args st
    obtain ⟨b1, b2, b3, b4⟩ := visit_sim ns (visitNodes st args)
    have hv : visitNodes st (PyNode.callOther args :: ns) =
        visitNodes (visitNodes st args) ns := by
      rw [visitNodes, visitNode]
    refine ⟨?_, ?_, ?_, ?_⟩
    · rw [hv, b1, a1, curAfterList, curAfter]
    · intro u v
      rw [hv, b2, a2, a1]
      simp only [callPairsList, callPairs, curAfter, List.mem_append]
      tauto
    · intro x hx
      rw [hv]
      exact b3 x (a3 x hx)
    · intro hnd
      rw [hv]
      exact b4 (a4 hnd)
  | (PyNode.other children) :: ns, st => by
    obtain ⟨a1, a2, a3, a4⟩ := visit_sim children st
    obtain ⟨b1, b2, b3, b4⟩ := visit_sim ns (visitNodes st children)
    have hv : visitNodes st (PyNode.other children :: ns) =
        visitNodes (visitNodes st children) ns := by
      rw [visitNodes, visitNode]
    refine ⟨?_, ?_, ?_, ?_⟩
    · rw [hv, b1, a1, curAfterList, curAfter]
    · intro u v
      rw [hv, b2, a2, a1]
      simp only [callPairsList, callPairs, curAfter, List.mem_append]
      tauto
    · intro x hx
      rw [hv]
      exact b3 x (a3 x hx)
    · intro hnd
      rw [hv]
      exact b4 (a4 hnd)
termination_by ns _ => sizeOf ns

/-! ## Lemmas about the component grouping -/

theorem sccGo_subset (g : Graph) :
    ∀ (fuel : Nat) (l : List String), ∀ c ∈ sccGo g fuel l, ∀ x ∈ c, x ∈ l := by
  intro fuel
  induction fuel with
  | zero =>
    intro l c hc
    cases l <;> simp [sccGo] at hc
  | succ fuel ih =>
    intro l c hc x hx
    cases l with
    | nil => simp [sccGo] at hc
    | cons n rest =>
      rw [sccGo] at hc
      rcases List.mem_cons.mp hc with h | h
      · subst h
        rcases List.mem_cons.mp hx with h | h
        · exact h ▸ List.mem_cons_self _ _
        · exact List.mem_cons_of_mem _ (List.mem_of_mem_filter h)
      · exact List.mem_cons_of_mem _
          (List.mem_of_mem_filter (ih _ c h x hx))

theorem sccGo_covers (g : Graph) :
    ∀ (fuel : Nat) (l : List String), l.length ≤ fuel →
      ∀ x ∈ l, ∃ c ∈ sccGo g fuel l, x ∈ c := by
  intro fuel
  induction fuel with
  | zero =>
    intro l hlen x hx
    rw [Nat.le_zero, List.length_eq_zero] at hlen
    subst hlen
    simp at hx
  | succ fuel ih =>
    intro l hlen x hx
    cases l with
    | nil => simp at hx
    | cons n rest =>
      rcases List.mem_cons.mp hx with h | h
      · subst h
        exact ⟨_, List.mem_cons_self _ _, List.mem_cons_self _ _⟩
      · by_cases hsame : sameSCC g n x = true
        · refine ⟨_, List.mem_cons_self _ _, ?_⟩
          exact List.mem_cons_of_mem _ (List.mem_filter.mpr ⟨h, hsame⟩)
        · have hx' : x ∈ rest.filter (fun w => !sameSCC g n w) :=
            List.mem_filter.mpr ⟨h, by simp [hsame]⟩
          have hlen' : (rest.filter (fun w => !sameSCC g n w)).length ≤ fuel := by
            have h1 := List.length_filter_le (fun w => !sameSCC g n w) rest
            simp only [List.length_cons] at hlen
            omega
          obtain ⟨c, hc, hxc⟩ := ih _ hlen' x hx'
          refine ⟨c, ?_, hxc⟩
          rw [sccGo]
          exact List.mem_cons_of_mem _ hc

theorem sccGo_disjoint (g : Graph) :
    ∀ (fuel : Nat) (l : List String), l.Nodup →
      (sccGo g fuel l).Pairwise (fun c d => ∀ x, x ∈ c → x ∉ d) := by
  intro fuel
  induction fuel with
  | zero =>
    intro l _
    cases l <;> simp [sccGo]
  | succ fuel ih =>
    intro l hnd
    cases l with
    | nil => simp [sccGo]
    | cons n rest =>
      rw [sccGo]
      have hnotin : n ∉ rest := (List.nodup_cons.mp hnd).1
      have hrest : rest.Nodup := (List.nodup_cons.mp hnd).2
      refine List.Pairwise.cons ?_ (ih _ (hrest.filter _))
      intro d hd x hxc hxd
      have hxd' : x ∈ rest.filter (fun w => !sameSCC g n w) :=
        sccGo_subset g fuel _ d hd x hxd
      have hxns : (!sameSCC g n x) = true := (List.mem_filter.mp hxd').2
      rcases List.mem_cons.mp hxc with h | h
      · subst h
        exact hnotin (List.mem_of_mem_filter hxd')
      · have hs : sameSCC g n x = true := (List.mem_filter.mp h).2
        rw [hs] at hxns
        simp at hxns

/-! ## Inert subtrees leave the builder state unchanged -/

theorem visit_inert : ∀ (ns : List PyNode) (st : BuilderState),
    inertNodes ns = true → visitNodes st ns = st
  | [], _ => fun _ => rfl
  | n :: ns, st => by
    intro h
    rw [inertNodes, Bool.and_eq_true] at h
    obtain ⟨h1, h2⟩ := h
    rcases n with ⟨name, body⟩ | ⟨callee, args⟩ | args | children
    · rw [inertNode] at h1
      exact absurd h1 (by simp)
    · rw [inertNode] at h1
      exact absurd h1 (by simp)
    · rw [inertNode] at h1
      rw [visitNodes, visitNode, visit_inert args st h1]
      exact visit_inert ns st h2
    · rw [inertNode] at h1
      rw [visitNodes, visitNode, visit_inert children st h1]
      exact visit_inert ns st h2
termination_by ns _ => sizeOf ns

/-! ## Lemmas about cluster rendering -/

theorem foldl_fullCode_acc (fm : List (String × String)) :
    ∀ (cluster : List String) (acc : String),
      cluster.foldl (fun acc n => match lookupFunc fm n with
        | some seg => acc ++ seg ++ "\n\n"
        | none => acc) acc =
      (cluster.filterMap (lookupFunc fm)).foldl
        (fun acc s => acc ++ s ++ "\n\n") acc := by
  intro cluster
  induction cluster with
  | nil => intro acc; rfl
  | cons n rest ih =>
    intro acc
    rcases hn : lookupFunc fm n with _ | seg
    · rw [List.foldl_cons, List.filterMap_cons, hn, ih]
    · rw [List.foldl_cons, List.filterMap_cons, hn, List.foldl_cons, ih]

theorem fullCode_eq_segsConcat (fm : List (String × String))
    (cluster : List String) :
    fullCode fm cluster = segsConcat (cluster.filterMap (lookupFunc fm)) := by
  unfold fullCode segsConcat
  exact foldl_fullCode_acc fm cluster ""

theorem fullCode_phantom {fm : List (String × String)} {cluster : List String}
    (h : ∀ n ∈ cluster, lookupFunc fm n = none) :
    fullCode fm cluster = "" := by
  rw [fullCode_eq_segsConcat]
  have hnil : cluster.filterMap (lookupFunc fm) = [] := by
    rw [List.filterMap_eq_nil_iff]
    exact h
  rw [hnil]
  rfl

theorem segsConcat_data_aux :
    ∀ (segs : List String) (acc : String),
      (segs.foldl (fun a s => a ++ s ++ "\n\n") acc).data =
        acc.data ++ concatNl2 (segs.map String.data) := by
  intro segs
  induction segs with
  | nil => intro acc; simp [concatNl2]
  | cons s rest ih =>
    intro acc
    rw [List.foldl_cons, ih, List.map_cons]
    show _ = acc.data ++ (s.data ++ '\n' :: '\n' :: concatNl2 (rest.map String.data))
    rw [String.data_append, String.data_append]
    show acc.data ++ s.data ++ ['\n', '\n'] ++ concatNl2 (rest.map String.data) = _
    simp [List.append_assoc]

theorem segsConcat_data (segs : List String) :
    (segsConcat segs).data = concatNl2 (segs.map String.data) := by
  unfold segsConcat
  rw [segsConcat_data_aux]
  rfl

theorem concatNl2_eq_joinBlank :
    ∀ {ls : List (List Char)}, ls ≠ [] →
      concatNl2 ls = joinBlankChars ls ++ ['\n', '\n'] := by
  intro ls
  induction ls with
  | nil => exact fun h => absurd rfl h
  | cons l ls ih =>
    intro _
    rcases ls with _ | ⟨l', ls'⟩
    · simp [concatNl2, joinBlankChars]
    · rw [concatNl2, ih (by simp), joinBlankChars]
      simp

theorem pyLinesChars_nl_cons (cs : List Char) :
    pyLinesChars ('\n' :: cs) = [] :: pyLinesChars cs := by
  rw [pyLinesChars]
  simp

theorem pyLines_concatNl2_length :
    ∀ (ls : List (List Char)),
      (∀ l ∈ ls, l ≠ [] ∧ l.getLast? ≠ some '\n') →
      (pyLinesChars (concatNl2 ls)).length =
        (ls.map (fun l => (pyLinesChars l).length)).sum + ls.length := by
  intro ls
  induction ls with
  | nil => intro _; simp [concatNl2, pyLinesChars]
  | cons l ls ih =>
    intro h
    obtain ⟨hne, hlast⟩ := h l (List.mem_cons_self _ _)
    have hrest := ih fun x hx => h x (List.mem_cons_of_mem _ hx)
    rw [concatNl2, pyLinesChars_append_nl,
      pyLinesChars_append_single_nl hne hlast, pyLinesChars_nl_cons]
    simp only [List.length_append, List.length_cons, hrest, List.map_cons,
      List.sum_cons]
    omega

theorem pyLines_joinBlank_length :
    ∀ (ls : List (List Char)), ls ≠ [] →
      (∀ l ∈ ls, l ≠ [] ∧ l.getLast? ≠ some '\n') →
      (pyLinesChars (joinBlankChars ls)).length =
        (ls.map (fun l => (pyLinesChars l).length)).sum + ls.length - 1 := by
  intro ls
  induction ls with
  | nil => exact fun h _ => absurd rfl h
  | cons l ls ih =>
    intro _ h
    obtain ⟨hne, hlast⟩ := h l (List.mem_cons_self _ _)
    rcases ls with _ | ⟨l', ls'⟩
    · simp [joinBlankChars]
    · have hrest := ih (by simp) fun x hx => h x (List.mem_cons_of_mem _ hx)
      rw [joinBlankChars, pyLinesChars_append_nl,
        pyLinesChars_append_single_nl hne hlast, pyLinesChars_nl_cons]
      simp only [List.length_append, List.length_cons, hrest, List.map_cons,
        List.sum_cons]
      have hpos : 1 ≤ (l' :: ls').length := by simp
      omega

theorem head_append_left {α : Type} {l : List α} (x : List α) (h : l ≠ []) :
    (l ++ x).head? = l.head? := by
  rcases l with _ | ⟨c, cs⟩
  · exact absurd rfl h
  · rfl

theorem joinBlank_ne_nil :
    ∀ {ls : List (List Char)}, ls ≠ [] → [] ∉ ls → joinBlankChars ls ≠ [] := by
  intro ls h0 h1
  rcases ls with _ | ⟨l, ls⟩
  · exact absurd rfl h0
  · have hl : l ≠ [] := fun hx => h1 (hx ▸ List.mem_cons_self _ _)
    rcases ls with _ | ⟨l', ls'⟩
    · simpa [joinBlankChars] using hl
    · rw [joinBlankChars]
      simp

theorem joinBlank_head {l : List Char} (ls : List (List Char)) (hl : l ≠ []) :
    (joinBlankChars (l :: ls)).head? = l.head? := by
  rcases ls with _ | ⟨l', ls'⟩
  · rfl
  · rw [joinBlankChars]
    exact head_append_left _ hl

theorem joinBlank_last :
    ∀ (ls : List (List Char)) (l : List Char), [] ∉ ls → l ≠ [] →
      (joinBlankChars (ls ++ [l])).getLast? = l.getLast? := by
  intro ls
  induction ls with
  | nil => intro l _ _; rfl
  | cons a as ih =>
    intro l hmem hl
    have ha : a ≠ [] := fun hx => hmem (hx ▸ List.mem_cons_self _ _)
    have has : [] ∉ as := fun hx => hmem (List.mem_cons_of_mem _ hx)
    have hjb : joinBlankChars (as ++ [l]) ≠ [] := by
      apply joinBlank_ne_nil (by simp)
      intro hx
      rcases List.mem_append.mp hx with h1 | h2
      · exact has h1
      · rw [List.mem_singleton] at h2
        exact hl h2.symm
    rcases hshape : as ++ [l] with _ | ⟨b, bs⟩
    · simp at hshape
    · rw [List.cons_append, hshape, joinBlankChars,
        List.getLast?_append_of_ne_nil _ (by simp)]
      rcases hjbs : joinBlankChars (b :: bs) with _ | ⟨j, js⟩
      · rw [hshape] at hjb
        exact absurd hjbs hjb
      · rw [List.getLast?_cons_cons, List.getLast?_cons_cons, ← hjbs,
          ← hshape, ih l has hl]

theorem joinBlank_strip_fixed {ls : List (List Char)}
    (h : ∀ s ∈ ls, s ≠ [] ∧ pyStripChars s = s) :
    pyStripChars (joinBlankChars ls) = joinBlankChars ls := by
  rcases ls with _ | ⟨l, rest⟩
  · rfl
  · obtain ⟨hl, hstrip⟩ := h l (List.mem_cons_self _ _)
    apply pyStripChars_eq_self
    · intro c hc
      rw [joinBlank_head rest hl] at hc
      exact head_not_ws_of_strip_eq hstrip c hc
    · intro c hc
      have hne : (l :: rest : List (List Char)) ≠ [] := by simp
      have hdecomp : l :: rest =
          (l :: rest).dropLast ++ [(l :: rest).getLast hne] :=
        (List.dropLast_append_getLast hne).symm
      have hlastmem : (l :: rest).getLast hne ∈ l :: rest := List.getLast_mem hne
      obtain ⟨hlne, hlstrip⟩ := h _ hlastmem
      have hsub : [] ∉ (l :: rest).dropLast := by
        intro hx
        have hsub2 := List.dropLast_subset _ hx
        exact (h [] hsub2).1 rfl
      rw [hdecomp, joinBlank_last _ _ hsub hlne] at hc
      exact last_not_ws_of_strip_eq hlstrip hlne c hc

theorem pyStrip_append_blank (s : String) :
    pyStrip (s ++ "\n\n") = pyStrip s := by
  unfold pyStrip
  have hd : (s ++ "\n\n").data = s.data ++ ['\n', '\n'] := by
    rw [String.data_append]
  rw [hd, pyStripChars_append_ws (by decide)]

theorem pySplitlines_append_blank {s : String} (h0 : s.data ≠ [])
    (h1 : s.data.getLast? ≠ some '\n') :
    pySplitlines (s ++ "\n\n") = pySplitlines s ++ [""] := by
  unfold pySplitlines
  have hd : (s ++ "\n\n").data = s.data ++ '\n' :: ['\n'] := by
    rw [String.data_append]
  rw [hd, pyLinesChars_append_nl, pyLinesChars_append_single_nl h0 h1]
  simp [pyLinesChars]

/-! ## Small bridging lemmas -/

theorem string_ext {s t : String} (h : s.data = t.data) : s = t := by
  cases s
  cases t
  exact congrArg String.mk h

theorem string_data_ne_nil {s : String} (h : s ≠ "") : s.data ≠ [] := by
  intro hd
  apply h
  apply string_ext
  exact hd

theorem pySplitlines_map_data (s : String) :
    (pySplitlines s).map String.data = pyLinesChars s.data := by
  unfold pySplitlines
  rw [List.map_map]
  have hcomp : (String.data ∘ String.mk) = id := funext fun cs => rfl
  rw [hcomp, List.map_id]

theorem mem_pySplitlines_no_nl {s l : String} (h : l ∈ pySplitlines s) :
    '\n' ∉ l.data := by
  unfold pySplitlines at h
  obtain ⟨cs, hcs, rfl⟩ := List.mem_map.mp h
  exact mem_pyLinesChars_not_nl hcs

theorem pyStripChars_of_strip_eq {s : String} (h : pyStrip s = s) :
    pyStripChars s.data = s.data := by
  have := congrArg String.data h
  exact this

theorem getLast_ne_nl_of_strip_eq {s : String} (h : pyStrip s = s)
    (h2 : s ≠ "") : s.data.getLast? ≠ some '\n' := by
  intro hl
  have hws := last_not_ws_of_strip_eq (pyStripChars_of_strip_eq h)
    (string_data_ne_nil h2) '\n' hl
  simp [isPyWs] at hws

/-! ## Claim theorems -/

/-- Counterexample for claim C1.  In
`def f():\n    def g():\n        h()` the call to `h` inside the nested
scope is recorded with caller `g` — the nested function — and no edge
from the enclosing top-level function `f` exists; and in
`def f():\n    pass\np()` the module-level call to `p` after the
function definition does produce an edge, attributed to `f`. -/
theorem callEdges_nested_attribution_ce :
    (moduleGraph nestedStmts).edges = [("g", "h")] ∧
    ("f", "h") ∉ (moduleGraph nestedStmts).edges ∧
    (moduleGraph topCallStmts).edges = [("f", "p")] := by
  refine ⟨by decide, by decide, by decide⟩

/-- Claim C1, amended: an edge `(u, v)` is recorded exactly when a call
expression with simple callee `v` occurs, in pre-order, at a point where
the most recently started function definition (of any nesting depth) is
`u`.  Calls in nested scopes therefore attribute to the innermost
previously started definition, not to the enclosing top-level function,
and module-level calls produce an edge to the most recently defined
function when one precedes them and no edge otherwise. -/
theorem callEdges_preorder_characterization (stmts : List PyStmt)
    (u v : String) :
    (u, v) ∈ (moduleGraph stmts).edges ↔
      (some u, v) ∈ callPairsList none (stmts.map stmtToNode) := by
  have h := (visit_sim (stmts.map stmtToNode) ⟨⟨[], []⟩, none⟩).2.1 u v
  unfold moduleGraph
  rw [h]
  simp

/-- Counterexample for claim C2: for `def f():\n    print(1)` the
clusters are `{f}` and `{print}`, so the union of all clusters is
`{f, print}`, a strict superset of the set `{f}` of top-level function
declaration names. -/
theorem scc_union_ce :
    sccClusters (moduleGraph phantomModule.body) = [["f"], ["print"]] ∧
    topLevelFuncNames phantomModule.body = ["f"] ∧
    "print" ∉ topLevelFuncNames phantomModule.body := by
  refine ⟨by decide, by decide, by decide⟩

theorem topLevel_mem_nodes :
    ∀ (stmts : List PyStmt) (st : BuilderState) (n : String),
      n ∈ topLevelFuncNames stmts →
      n ∈ (visitNodes st (stmts.map stmtToNode)).graph.nodes := by
  intro stmts
  induction stmts with
  | nil =>
    intro st n h
    simp [topLevelFuncNames] at h
  | cons s rest ih =>
    intro st n h
    rcases s with ⟨name, body, seg⟩ | ⟨children, seg⟩
    · simp only [topLevelFuncNames, List.filterMap_cons] at h
      rw [List.mem_cons] at h
      rcases h with h | h
      · subst h
        rw [List.map_cons, visitNodes]
        refine (visit_sim _ _).2.2.1 n ?_
        show n ∈ (visitNode st (stmtToNode (PyStmt.funcDef n body seg))).graph.nodes
        rw [stmtToNode, visitNode]
        refine (visit_sim body _).2.2.1 n ?_
        exact mem_addNode_nodes.mpr (Or.inr rfl)
      · rw [List.map_cons, visitNodes]
        exact ih _ n h
    · simp only [topLevelFuncNames, List.filterMap_cons] at h
      rw [List.map_cons, visitNodes]
      exact ih _ n h

theorem moduleGraph_nodes_nodup (stmts : List PyStmt) :
    (moduleGraph stmts).nodes.Nodup :=
  (visit_sim (stmts.map stmtToNode) ⟨⟨[], []⟩, none⟩).2.2.2 List.nodup_nil

/-- Claim C2, amended: the clusters are pairwise disjoint, every
top-level function name lies in exactly one of them, and every cluster
member is a node of the call graph — but the union of all clusters
equals the full node set of the graph, which also contains phantom
callee names and nested-function names and can strictly exceed the set
of top-level declaration names. -/
theorem scc_partition_amended (m : PyModule) :
    (sccClusters (moduleGraph m.body)).Pairwise (fun c d => ∀ x, x ∈ c → x ∉ d) ∧
    (∀ n ∈ topLevelFuncNames m.body,
      ∃ c ∈ sccClusters (moduleGraph m.body), n ∈ c) ∧
    (∀ c ∈ sccClusters (moduleGraph m.body), ∀ x ∈ c,
      x ∈ (moduleGraph m.body).nodes) ∧
    (∀ x ∈ (moduleGraph m.body).nodes,
      ∃ c ∈ sccClusters (moduleGraph m.body), x ∈ c) := by
  refine ⟨?_, ?_, ?_, ?_⟩
  · exact sccGo_disjoint _ _ _ (moduleGraph_nodes_nodup m.body)
  · intro n hn
    exact sccGo_covers _ _ _ (le_refl _) n
      (topLevel_mem_nodes m.body ⟨⟨[], []⟩, none⟩ n hn)
  · intro c hc x hx
    exact sccGo_subset _ _ _ c hc x hx
  · intro x hx
    exact sccGo_covers _ _ _ (le_refl _) x hx

/-- Witness for the amended claim C2 at a concrete module. -/
theorem scc_partition_amended_witness :
    ∃ c ∈ sccClusters (moduleGraph phantomModule.body), "f" ∈ c :=
  (scc_partition_amended phantomModule).2.1 "f" (by decide)

/-- Claim C8: when the input exceeds the line budget,
`split_large_function` cuts the line list into consecutive non-empty
groups — every line lands in exactly one chunk, in order, and each chunk
joins at least one line. -/
theorem structural_split_partition (code : String) (maxLines : Nat)
    (h : maxLines < (pySplitlines code).length) :
    ∃ groups : List (List String),
      [] ∉ groups ∧
      groups.flatten = pySplitlines code ∧
      splitLargeFunction code maxLines = groups.map pyJoinNL := by
  have hnil : noTrigger maxLines [] := by
    intro lp l ls hdec
    exact absurd hdec.symm (by simp)
  obtain ⟨groups, h1, h2, h3, _, _⟩ :=
    sflLoop_groups maxLines (pySplitlines code) [] hnil
  refine ⟨groups, h1, by simpa using h2, ?_⟩
  unfold splitLargeFunction
  rw [if_neg (by omega)]
  exact h3

/-- Witness for claim C8 at a concrete input. -/
theorem structural_split_partition_witness :
    2 < (pySplitlines "a\nb\nc\nd").length ∧
      ∃ groups : List (List String),
        [] ∉ groups ∧
        groups.flatten = pySplitlines "a\nb\nc\nd" ∧
        splitLargeFunction "a\nb\nc\nd" 2 = groups.map pyJoinNL :=
  ⟨by decide, structural_split_partition "a\nb\nc\nd" 2 (by decide)⟩

/-- Claim C9: for a chunk whose only line terminator is the newline
character and which does not end in a newline, joining the sub-chunks of
`split_large_chunk_by_token` with a single newline restores the chunk
exactly. -/
theorem token_split_roundtrip (chunk : String) (maxTokens : Nat)
    (_hterm : ∀ ch ∈ chunk.data,
      ch ∉ ['\r', '\x0b', '\x0c', '\x85', '\u2028', '\u2029'])
    (hend : chunk.data.getLast? ≠ some '\n') :
    pyJoinNL (splitLargeChunkByToken chunk maxTokens) = chunk := by
  obtain ⟨groups, h1, h2, h3, _⟩ :=
    sltLoop_groups (maxTokens * APPROX_CHARS_PER_TOKEN)
      (pySplitlines chunk) [] 0 rfl (by simp [sumLen])
  unfold splitLargeChunkByToken
  rw [h3]
  apply string_ext
  show joinNLChars ((groups.map pyJoinNL).map String.data) = chunk.data
  rw [List.map_map]
  have hmapeq : (groups.map (String.data ∘ pyJoinNL)) =
      (groups.map (List.map String.data)).map joinNLChars := by
    rw [List.map_map]
    rfl
  rw [hmapeq]
  have hnomem : [] ∉ groups.map (List.map String.data) := by
    intro hx
    obtain ⟨g, hg, hgx⟩ := List.mem_map.mp hx
    rw [List.map_eq_nil_iff] at hgx
    exact h1 (hgx ▸ hg)
  rw [joinNLChars_flatten hnomem]
  have hflat : (groups.map (List.map String.data)).flatten =
      (groups.flatten).map String.data := by
    rw [List.map_flatten]
  rw [hflat, h2, List.nil_append, pySplitlines_map_data]
  exact joinNLChars_pyLinesChars hend

/-- Witness for claim C9 at a concrete input. -/
theorem token_split_roundtrip_witness :
    pyJoinNL (splitLargeChunkByToken "ab\ncd" 1) = "ab\ncd" :=
  token_split_roundtrip "ab\ncd" 1 (by decide) (by decide)

theorem token_chunk_bound {chunk c : String} {maxTokens : Nat}
    (h : c ∈ splitLargeChunkByToken chunk maxTokens)
    (h2 : 2 ≤ (pySplitlines c).length) :
    c.length + 1 ≤ maxTokens * APPROX_CHARS_PER_TOKEN := by
  obtain ⟨groups, h1, hflat, hres, hbound⟩ :=
    sltLoop_groups (maxTokens * APPROX_CHARS_PER_TOKEN)
      (pySplitlines chunk) [] 0 rfl (by simp [sumLen])
  unfold splitLargeChunkByToken at h
  rw [hres] at h
  obtain ⟨g, hg, rfl⟩ := List.mem_map.mp h
  have hnonl : ∀ l ∈ g, '\n' ∉ l.data := by
    intro l hl
    have hfl : l ∈ groups.flatten := List.mem_flatten.mpr ⟨g, hg, hl⟩
    rw [hflat, List.nil_append] at hfl
    exact mem_pySplitlines_no_nl hfl
  rcases g with _ | ⟨l0, g'⟩
  · exact absurd hg h1
  rcases g' with _ | ⟨l1, g''⟩
  · exfalso
    have hje : pyJoinNL [l0] = l0 := rfl
    rw [hje] at h2
    have hl0 := hnonl l0 (List.mem_singleton.mpr rfl)
    have hlines := pyLinesChars_no_nl hl0
    unfold pySplitlines at h2
    by_cases hd : l0.data = []
    · rw [hlines, if_pos hd] at h2
      simp at h2
    · rw [hlines, if_neg hd] at h2
      simp at h2
  · have hb := hbound _ hg (by simp)
    have hlen : (pyJoinNL (l0 :: l1 :: g'')).length =
        sumLen (l0 :: l1 :: g'') - 1 := by
      have hjl := @joinNLChars_length
        ((l0 :: l1 :: g'').map String.data) (by simp)
      have hmapeq : ((l0 :: l1 :: g'').map String.data).map List.length =
          (l0 :: l1 :: g'').map String.length := by
        rw [List.map_map]
        rfl
      have hlen2 : (pyJoinNL (l0 :: l1 :: g'')).length =
          (joinNLChars ((l0 :: l1 :: g'').map String.data)).length := rfl
      rw [hlen2, hjl, hmapeq, sumLen_eq_sum_add_length]
      simp [List.length_map]
    rw [hlen]
    have hpos : 1 ≤ sumLen (l0 :: l1 :: g'') := by
      rw [sumLen_cons]
      omega
    omega

/-- Claim C3: every chunk in `chunk_code`'s final sequence that spans
more than one line has at most `MAX_TOKENS * APPROX_CHARS_PER_TOKEN`
(16000) characters; only single-line (or empty) chunks may exceed the
budget. -/
theorem final_chunk_size_bound (m : PyModule) (c : String)
    (h : c ∈ chunkCode m) (h2 : 2 ≤ (pySplitlines c).length) :
    c.length ≤ MAX_TOKENS * APPROX_CHARS_PER_TOKEN := by
  unfold chunkCode tokenLimitPass at h
  obtain ⟨c0, hc0, hmem⟩ := List.mem_flatMap.mp h
  by_cases hbig : MAX_TOKENS * APPROX_CHARS_PER_TOKEN < c0.length
  · rw [if_pos hbig] at hmem
    have hbd := token_chunk_bound hmem h2
    omega
  · rw [if_neg hbig] at hmem
    rw [List.mem_singleton] at hmem
    subst hmem
    omega

/-- Witness for claim C3 at a concrete module. -/
theorem final_chunk_size_bound_witness :
    ("def a():\n    pass" : String).length ≤
      MAX_TOKENS * APPROX_CHARS_PER_TOKEN :=
  final_chunk_size_bound smallModule "def a():\n    pass" (by decide) (by decide)

theorem splitLargeChunkByToken_ne_nil {c : String} {maxTokens : Nat}
    (h : c ≠ "") : splitLargeChunkByToken c maxTokens ≠ [] := by
  obtain ⟨groups, h1, h2, h3, _⟩ :=
    sltLoop_groups (maxTokens * APPROX_CHARS_PER_TOKEN)
      (pySplitlines c) [] 0 rfl (by simp [sumLen])
  unfold splitLargeChunkByToken
  rw [h3]
  intro hx
  rw [List.map_eq_nil_iff] at hx
  subst hx
  have hps : pySplitlines c = [] := by simpa using h2.symm
  unfold pySplitlines at hps
  rw [List.map_eq_nil_iff] at hps
  exact pyLinesChars_ne_nil (string_data_ne_nil h) hps

theorem tokenLimitPass_ne_nil {cs : List String} (h : cs ≠ []) :
    tokenLimitPass cs ≠ [] := by
  rcases cs with _ | ⟨c, rest⟩
  · exact absurd rfl h
  · unfold tokenLimitPass
    rw [List.flatMap_cons]
    intro hx
    rw [List.append_eq_nil] at hx
    obtain ⟨hx1, _⟩ := hx
    by_cases hbig : MAX_TOKENS * APPROX_CHARS_PER_TOKEN < c.length
    · rw [if_pos hbig] at hx1
      have hcne : c ≠ "" := by
        intro hc
        subst hc
        exact absurd hbig (by decide)
      exact splitLargeChunkByToken_ne_nil hcne hx1
    · rw [if_neg hbig] at hx1
      simp at hx1

/-- Claim C7: `chunk_code` always returns at least one chunk; on a
module with no statements and whitespace-only source it returns exactly
one chunk, the stripped (empty) string. -/
theorem chunker_nonempty_fallback (m : PyModule) :
    1 ≤ (chunkCode m).length ∧
    (m.body = [] → pyStrip m.source = "" → chunkCode m = [""]) := by
  constructor
  · have hfb : withFallback m (withGlobal m (clusterChunksAll m)) ≠ [] := by
      unfold withFallback
      by_cases hempty : (withGlobal m (clusterChunksAll m)).isEmpty = true
      · rw [if_pos hempty]
        simp
      · rw [if_neg hempty]
        intro hx
        rw [hx] at hempty
        exact hempty rfl
    have hne := tokenLimitPass_ne_nil hfb
    unfold chunkCode
    exact List.length_pos.mpr hne
  · intro hbody hsrc
    have hcca : clusterChunksAll m = [] := by
      unfold clusterChunksAll moduleGraph
      rw [hbody]
      rfl
    have hglob : globalCode m.body = "" := by
      rw [hbody]
      rfl
    have hwg : withGlobal m (clusterChunksAll m) = [] := by
      unfold withGlobal
      rw [hcca, hglob]
      rw [if_neg (by decide)]
    have hstage : withFallback m (withGlobal m (clusterChunksAll m)) = [""] := by
      unfold withFallback
      rw [hwg, if_pos (show ([] : List String).isEmpty = true from rfl), hsrc]
    unfold chunkCode
    rw [hstage]
    decide

/-- Witness for claim C7 at a whitespace-only module. -/
theorem chunker_nonempty_fallback_witness :
    chunkCode ⟨"  ", []⟩ = [""] :=
  (chunker_nonempty_fallback ⟨"  ", []⟩).2 rfl (by decide)

theorem mem_tokenLimitPass_of_small {cs : List String} {c : String}
    (hmem : c ∈ cs) (hlen : c.length ≤ MAX_TOKENS * APPROX_CHARS_PER_TOKEN) :
    c ∈ tokenLimitPass cs := by
  unfold tokenLimitPass
  refine List.mem_flatMap.mpr ⟨c, hmem, ?_⟩
  rw [if_neg (by omega)]
  exact List.mem_singleton.mpr rfl

/-- Claim C10: when a simple name that is not a top-level function
declaration forms its own cluster (a phantom callee such as a builtin),
`chunk_code`'s result contains an empty-string chunk contributed by that
cluster. -/
theorem phantom_cluster_empty_chunk (m : PyModule) (p : String)
    (h1 : [p] ∈ sccClusters (moduleGraph m.body))
    (h2 : lookupFunc (funcMapOf m.body) p = none) :
    "" ∈ chunkCode m := by
  have hcc : clusterChunks (funcMapOf m.body) [p] = [""] := by
    unfold clusterChunks
    rw [fullCode_phantom ?hp]
    case hp =>
      intro n hn
      rw [List.mem_singleton] at hn
      subst hn
      exact h2
    rw [if_neg (by decide)]
    rfl
  have hmem0 : "" ∈ clusterChunksAll m := by
    unfold clusterChunksAll
    refine List.mem_flatMap.mpr ⟨[p], h1, ?_⟩
    rw [hcc]
    exact List.mem_singleton.mpr rfl
  have hmem1 : "" ∈ withGlobal m (clusterChunksAll m) := by
    unfold withGlobal
    by_cases hg : pyStrip (globalCode m.body) ≠ ""
    · rw [if_pos hg]
      exact List.mem_cons_of_mem _ hmem0
    · rw [if_neg hg]
      exact hmem0
  have hmem2 : "" ∈ withFallback m (withGlobal m (clusterChunksAll m)) := by
    unfold withFallback
    rw [if_neg ?hne]
    case hne =>
      intro hx
      rw [List.isEmpty_iff] at hx
      rw [hx] at hmem1
      simp at hmem1
    exact hmem1
  exact mem_tokenLimitPass_of_small hmem2 (by decide)

/-- Witness for claim C10: `def f():\n    print(1)` yields an empty
chunk for the phantom cluster of `print`. -/
theorem phantom_cluster_empty_chunk_witness :
    "" ∈ chunkCode phantomModule :=
  phantom_cluster_empty_chunk phantomModule "print" (by decide) (by decide)

set_option maxRecDepth 10000 in
/-- Counterexample for claim C4.  In a 52-line function whose line 51 is
`    if(True):` — starting with the keyword `if` immediately followed by
a parenthesis — the code does not flush (its test is the string prefix
`"if "` with a trailing space), returning one single chunk, while the
claimed trigger (stripped line starts with the keyword `if`) mandates a
flush after line 51. -/
theorem structural_keyword_ce :
    splitLargeFunction parenIfInput 50 = [parenIfInput] ∧
    claimedStructuralSplit parenIfInput 50 =
      [pyJoinNL (parenIfLines.take 51), "    y = 2"] ∧
    claimedStructuralSplit parenIfInput 50 ≠
      splitLargeFunction parenIfInput 50 := by
  refine ⟨by decide, by decide, by decide⟩

set_option maxRecDepth 10000 in
/-- Claim C4, amended: within budget the text is returned unchanged as a
single chunk; above budget the lines are cut into non-empty groups,
where every non-final group ends exactly at a line passing the code's
trigger — stripped line starting with the string `"if "`, `"for "`,
`"while "`, `"def "` (keyword plus space), `"try"` or `"except"` — with
the group at least `maxLines` long, and no group has such a trigger
position before its last line.  The 120-line scenario with `if` on line
55 yields a first 55-line chunk ending at the `if` line and the 65-line
remainder. -/
theorem structural_split_amended :
    (∀ (code : String) (maxLines : Nat),
      (pySplitlines code).length ≤ maxLines →
      splitLargeFunction code maxLines = [code]) ∧
    (∀ (code : String) (maxLines : Nat),
      maxLines < (pySplitlines code).length →
      ∃ groups : List (List String),
        [] ∉ groups ∧
        groups.flatten = pySplitlines code ∧
        splitLargeFunction code maxLines = groups.map pyJoinNL ∧
        (∀ gp g gs, groups = gp ++ g :: gs → gs ≠ [] →
          maxLines ≤ g.length ∧
          ∃ l, g.getLast? = some l ∧ isSplitKeywordLine l = true) ∧
        (∀ g ∈ groups, ∀ lp l ls, g = lp ++ l :: ls → ls ≠ [] →
          ¬(isSplitKeywordLine l = true ∧ maxLines ≤ lp.length + 1))) ∧
    (splitLargeFunction sample120 50 =
        [pyJoinNL (sampleLines120.take 55), pyJoinNL (sampleLines120.drop 55)] ∧
      (pySplitlines (pyJoinNL (sampleLines120.take 55))).length = 55 ∧
      (sampleLines120.take 55).getLast? = some "    if x:") := by
  refine ⟨?_, ?_, ?_, ?_, ?_⟩
  · intro code maxLines h
    unfold splitLargeFunction
    rw [if_pos h]
  · intro code maxLines h
    have hnil : noTrigger maxLines [] := by
      intro lp l ls hdec
      exact absurd hdec.symm (by simp)
    obtain ⟨groups, h1, h2, h3, h4, h5⟩ :=
      sflLoop_groups maxLines (pySplitlines code) [] hnil
    refine ⟨groups, h1, by simpa using h2, ?_, h4, h5⟩
    unfold splitLargeFunction
    rw [if_neg (by omega)]
    exact h3
  · decide
  · decide
  · decide

/-- Witness for the amended claim C4 on a within-budget input. -/
theorem structural_split_amended_witness :
    splitLargeFunction "x = 1" 50 = ["x = 1"] :=
  structural_split_amended.1 "x = 1" 50 (by decide)

theorem flatMap_match_filterMap (fm : List (String × String))
    (cluster : List String) (f : String → List String) :
    (cluster.flatMap fun n => match lookupFunc fm n with
      | some seg => f seg
      | none => []) = (cluster.filterMap (lookupFunc fm)).flatMap f := by
  induction cluster with
  | nil => rfl
  | cons n rest ih =>
    rcases hn : lookupFunc fm n with _ | seg
    · simp only [List.flatMap_cons, List.filterMap_cons, hn, ih,
        List.nil_append]
    · simp only [List.flatMap_cons, List.filterMap_cons, hn, ih]

set_option maxRecDepth 100000 in
/-- Counterexample for claim C5: a cluster of two mutually recursive
functions of 50 and 49 lines renders at exactly 100 lines, at which the
claim demands the single merged chunk; the code instead discards it and
emits the two per-function splitter results. -/
theorem cluster_threshold_ce :
    chunkCode mutualModule = [segF, segG] ∧
    (pySplitlines (renderedText [segF, segG])).length = 100 ∧
    funcMapOf mutualModule.body = [("f", segF), ("g", segG)] ∧
    sccClusters (moduleGraph mutualModule.body) = [["f", "g"]] := by
  refine ⟨by decide, by decide, by decide, by decide⟩

/-- Claim C5, amended: when the members' segments are non-blank, carry
no trailing newline and are already stripped, a cluster is split
per-function exactly when its rendered text reaches 100 lines (not only
above 100), and a cluster rendering at 99 lines or fewer yields exactly
one merged chunk, equal to the rendered text. -/
theorem cluster_threshold_amended (fm : List (String × String))
    (cluster : List String)
    (h : ∀ s ∈ cluster.filterMap (lookupFunc fm), s ≠ "" ∧ pyStrip s = s) :
    (100 ≤ (pySplitlines
        (renderedText (cluster.filterMap (lookupFunc fm)))).length →
      clusterChunks fm cluster =
        (cluster.filterMap (lookupFunc fm)).flatMap
          (fun s => splitLargeFunction s 50)) ∧
    ((pySplitlines
        (renderedText (cluster.filterMap (lookupFunc fm)))).length ≤ 99 →
      clusterChunks fm cluster =
        [renderedText (cluster.filterMap (lookupFunc fm))]) := by
  set segs := cluster.filterMap (lookupFunc fm) with hsegs
  have hfacts : ∀ l ∈ segs.map String.data,
      l ≠ [] ∧ l.getLast? ≠ some '\n' ∧ pyStripChars l = l := by
    intro l hl
    obtain ⟨sg, hsg, rfl⟩ := List.mem_map.mp hl
    obtain ⟨hne, hstrip⟩ := h sg hsg
    exact ⟨string_data_ne_nil hne, getLast_ne_nl_of_strip_eq hstrip hne,
      pyStripChars_of_strip_eq hstrip⟩
  have hren_data : (renderedText segs).data =
      joinBlankChars (segs.map String.data) := by
    show pyStripChars (joinBlankChars (segs.map String.data)) = _
    exact joinBlank_strip_fixed fun l hl => ⟨(hfacts l hl).1, (hfacts l hl).2.2⟩
  have hfc_data : (fullCode fm cluster).data =
      concatNl2 (segs.map String.data) := by
    rw [fullCode_eq_segsConcat]
    exact segsConcat_data segs
  have hfull_lines : (pySplitlines (fullCode fm cluster)).length =
      ((segs.map String.data).map
        (fun l => (pyLinesChars l).length)).sum + segs.length := by
    unfold pySplitlines
    rw [List.length_map, hfc_data,
      pyLines_concatNl2_length _
        (fun l hl => ⟨(hfacts l hl).1, (hfacts l hl).2.1⟩),
      List.length_map]
  constructor
  · intro hbig
    by_cases hnil : segs = []
    · exfalso
      rw [hnil] at hbig
      have hz : (pySplitlines (renderedText ([] : List String))).length = 0 := by
        decide
      omega
    · have hren_lines : (pySplitlines (renderedText segs)).length =
          ((segs.map String.data).map
            (fun l => (pyLinesChars l).length)).sum + segs.length - 1 := by
        unfold pySplitlines
        rw [List.length_map, hren_data,
          pyLines_joinBlank_length _ (by simpa using hnil)
            (fun l hl => ⟨(hfacts l hl).1, (hfacts l hl).2.1⟩),
          List.length_map]
      have hk : 1 ≤ segs.length := by
        rcases hsg : segs with _ | _
        · exact absurd hsg hnil
        · simp
      have hcond : 100 < (pySplitlines (fullCode fm cluster)).length := by
        rw [hfull_lines]
        rw [hren_lines] at hbig
        omega
      unfold clusterChunks
      rw [if_pos hcond]
      exact flatMap_match_filterMap fm cluster _
  · intro hsmall
    by_cases hnil : segs = []
    · have hfc0 : fullCode fm cluster = "" := by
        rw [fullCode_eq_segsConcat, ← hsegs, hnil]
        rfl
      unfold clusterChunks
      rw [hfc0, if_neg (by decide), hnil]
      decide
    · have hren_lines : (pySplitlines (renderedText segs)).length =
          ((segs.map String.data).map
            (fun l => (pyLinesChars l).length)).sum + segs.length - 1 := by
        unfold pySplitlines
        rw [List.length_map, hren_data,
          pyLines_joinBlank_length _ (by simpa using hnil)
            (fun l hl => ⟨(hfacts l hl).1, (hfacts l hl).2.1⟩),
          List.length_map]
      have hk : 1 ≤ segs.length := by
        rcases hsg : segs with _ | _
        · exact absurd hsg hnil
        · simp
      have hcond : ¬(100 < (pySplitlines (fullCode fm cluster)).length) := by
        rw [hfull_lines]
        rw [hren_lines] at hsmall
        omega
      unfold clusterChunks
      rw [if_neg hcond]
      congr 1
      apply string_ext
      rw [hren_data]
      show pyStripChars (fullCode fm cluster).data = _
      rw [hfc_data, concatNl2_eq_joinBlank (by simpa using hnil),
        pyStripChars_append_ws (by decide)]
      exact joinBlank_strip_fixed fun l hl => ⟨(hfacts l hl).1, (hfacts l hl).2.2⟩

/-- Witness for the amended claim C5 on a small singleton cluster. -/
theorem cluster_threshold_amended_witness :
    clusterChunks [("a", "def a():\n    pass")] ["a"] =
      ["def a():\n    pass"] := by
  have h := (cluster_threshold_amended [("a", "def a():\n    pass")] ["a"]
    (by decide)).2 (by decide)
  rw [h]
  decide

/-- Counterexample for claim C6: a source with two small independent
functions fits every budget, yet `chunk_code` returns two chunks, not
one chunk equal to the trimmed source. -/
theorem single_chunk_idempotence_ce :
    chunkCode twoFuncModule = ["def x():\n    pass", "def y():\n    pass"] ∧
    pyStrip twoFuncModule.source =
      "def x():\n    pass\n\ndef y():\n    pass" ∧
    twoFuncModule.source.length ≤ MAX_TOKENS * APPROX_CHARS_PER_TOKEN ∧
    (pySplitlines twoFuncModule.source).length ≤ 50 := by
  refine ⟨by decide, by decide, by decide, by decide⟩

/-- Claim C6, amended: for a module consisting of a single top-level
function definition whose body contains no function definition and no
simple-name call, whose segment is non-blank, already stripped, spans at
most 99 lines and at most the character budget, and equals the trimmed
source, `chunk_code` returns exactly one chunk — the trimmed original
source. -/
theorem single_function_idempotence (src name seg : String)
    (body : List PyNode)
    (h1 : inertNodes body = true)
    (h2 : seg ≠ "")
    (h3 : pyStrip seg = seg)
    (h4 : (pySplitlines seg).length ≤ 99)
    (h5 : seg.length ≤ MAX_TOKENS * APPROX_CHARS_PER_TOKEN)
    (h6 : pyStrip src = seg) :
    chunkCode ⟨src, [PyStmt.funcDef name body seg]⟩ = [pyStrip src] := by
  have hgr : moduleGraph [PyStmt.funcDef name body seg] =
      ⟨[name], []⟩ := by
    unfold moduleGraph
    simp only [List.map_cons, List.map_nil, stmtToNode, visitNodes, visitNode]
    rw [visit_inert body _ h1]
    simp [Graph.addNode]
  have hscc : sccClusters (⟨[name], []⟩ : Graph) = [[name]] := by
    unfold sccClusters
    simp [sccGo]
  have hfm : funcMapOf [PyStmt.funcDef name body seg] = [(name, seg)] := by
    simp [funcMapOf]
  have hlk : lookupFunc [(name, seg)] name = some seg := by
    simp [lookupFunc]
  have hfull : fullCode [(name, seg)] [name] = seg ++ "\n\n" := by
    unfold fullCode
    simp only [List.foldl_cons, List.foldl_nil, hlk]
    apply string_ext
    rw [String.data_append, String.data_append, String.data_append]
    simp
  have hlines : pySplitlines (seg ++ "\n\n") = pySplitlines seg ++ [""] :=
    pySplitlines_append_blank (string_data_ne_nil h2)
      (getLast_ne_nl_of_strip_eq h3 h2)
  have hcc : clusterChunks [(name, seg)] [name] = [seg] := by
    unfold clusterChunks
    rw [hfull, hlines, if_neg (by
      rw [List.length_append]
      simp only [List.length_cons, List.length_nil]
      omega)]
    rw [pyStrip_append_blank, h3]
  have hall : clusterChunksAll ⟨src, [PyStmt.funcDef name body seg]⟩ =
      [seg] := by
    unfold clusterChunksAll
    show (sccClusters (moduleGraph [PyStmt.funcDef name body seg])).flatMap
      (clusterChunks (funcMapOf [PyStmt.funcDef name body seg])) = [seg]
    rw [hgr, hscc, hfm]
    simp [hcc]
  have hglob : globalCode [PyStmt.funcDef name body seg] = "" := rfl
  have hwg : withGlobal ⟨src, [PyStmt.funcDef name body seg]⟩ [seg] =
      [seg] := by
    unfold withGlobal
    show (if pyStrip (globalCode [PyStmt.funcDef name body seg]) ≠ "" then _
      else _) = _
    rw [hglob, if_neg (by decide)]
  have hwf : withFallback ⟨src, [PyStmt.funcDef name body seg]⟩ [seg] =
      [seg] := by
    unfold withFallback
    rw [if_neg (by simp)]
  have htlp : tokenLimitPass [seg] = [seg] := by
    unfold tokenLimitPass
    rw [List.flatMap_cons, if_neg (by omega)]
    rfl
  unfold chunkCode
  rw [hall, hwg, hwf, htlp, h6]

/-- Witness for the amended claim C6 on a concrete single-function
module. -/
theorem single_function_idempotence_witness :
    chunkCode ⟨" def a():\n    pass ",
      [PyStmt.funcDef "a" [PyNode.other []] "def a():\n    pass"]⟩ =
      [pyStrip " def a():\n    pass "] :=
  single_function_idempotence " def a():\n    pass " "a"
    "def a():\n    pass" [PyNode.other []]
    (by decide) (by decide) (by decide) (by decide) (by decide) (by decide)
